import Mathlib

/-!
# A shallow embedding of the saffron cron engine

Definitions translated from `src/saffron/src/lib.rs` and
`src/saffron/src/parse.rs` (crate `saffron`), followed by theorems about the
claims of the specification.  Machine integers (`u8`/`u16`/`u32`/`u64`) are
modelled as `Nat` with explicit truncation (`% 2 ^ w`) at left shifts, the
only place overflow can occur in the source.  `chrono` dates are modelled as
year/month/day records in the proleptic Gregorian calendar together with the
derived weekday.
-/

namespace Saffron

/-! ## Bit manipulation helpers -/

/-- Rust `trailing_zeros` on a `w`-bit integer: the index of the least set
bit of `x`, or `w` when no bit below `w` is set (matching
`u64::trailing_zeros(0) == 64` etc.). -/
def trailingZeros : Nat → Nat → Nat
  | 0, _ => 0
  | w + 1, x => if x % 2 = 1 then 0 else trailingZeros w (x / 2) + 1

/-- Rust `(x >> s) << s`: clears the bits below `s`.  (No overflow is
possible, so no width is needed.) -/
def clearLow (x s : Nat) : Nat := (x >>> s) <<< s

/-- Rust `(x << s) >> s` on a `w`-bit integer: clears the bits at and above
`w - s`.  The left shift truncates at the machine width `w`. -/
def shlShr (w x s : Nat) : Nat := ((x <<< s) % 2 ^ w) >>> s

/-- Wrapping `u32` subtraction (release-mode semantics of `a - b`). -/
def wsub32 (a b : Nat) : Nat := (a % 2 ^ 32 + 2 ^ 32 - b % 2 ^ 32) % 2 ^ 32

/-! ## Dates and times

`chrono::Date<Utc>` / `DateTime<Utc>` are modelled as plain records.  The
weekday is derived from the proleptic Gregorian calendar, as chrono does.  -/

/-- A calendar date (chrono `Date<Utc>`). -/
structure SDate where
  year : Int
  month : Nat
  day : Nat
deriving DecidableEq, Repr

/-- A time of day (chrono `NaiveTime`). -/
structure STime where
  hour : Nat
  minute : Nat
  sec : Nat
  nano : Nat
deriving DecidableEq, Repr

/-- An instant (chrono `DateTime<Utc>`). -/
structure SDateTime where
  date : SDate
  time : STime
deriving DecidableEq, Repr

/-- chrono `day0`: zero-based day of the month. -/
def SDate.day0 (d : SDate) : Nat := d.day - 1

/-- chrono `month0`: zero-based month. -/
def SDate.month0 (d : SDate) : Nat := d.month - 1

/-- The Gregorian leap-year rule, written as the source's `days_in_month`
cascade tests it.  (Rust `%` on `i32` and Lean `%` on `Int` agree on
whether a remainder is zero.) -/
def isLeapYear (y : Int) : Bool :=
  (y % 4 == 0) && (!(y % 100 == 0) || (y % 400 == 0))

/-- `days_in_month` from the source: the number of days in the month of the
given date, 28-31.  The source panics on months outside 1-12 (unreachable);
we return 0 there. -/
def daysInMonth (date : SDate) : Nat :=
  match date.month with
  | 1 | 3 | 5 | 7 | 8 | 10 | 12 => 31
  | 4 | 6 | 9 | 11 => 30
  | 2 =>
    if ¬(date.year % 4 = 0) then 28
    else if ¬(date.year % 100 = 0) then 29
    else if ¬(date.year % 400 = 0) then 28
    else 29
  | _ => 0

/-- Cumulative days before month `m` (1-12) in a year, split on leapness. -/
def daysBeforeMonth (leap : Bool) (m : Nat) : Nat :=
  (match m with
   | 1 => 0 | 2 => 31 | 3 => 59 | 4 => 90 | 5 => 120 | 6 => 151
   | 7 => 181 | 8 => 212 | 9 => 243 | 10 => 273 | 11 => 304 | 12 => 334
   | _ => 365)
  + (if leap && decide (3 ≤ m) then 1 else 0)

/-- Rata-die style day number in the proleptic Gregorian calendar:
0001-01-01 has number 1.  Divisions are Euclidean, which coincides with
floor division for the positive divisors used here. -/
def SDate.rd (d : SDate) : Int :=
  365 * (d.year - 1) + (d.year - 1) / 4 - (d.year - 1) / 100 + (d.year - 1) / 400
    + daysBeforeMonth (isLeapYear d.year) d.month + d.day

/-- chrono `weekday().num_days_from_sunday()`: Sunday = 0 .. Saturday = 6.
0001-01-01 of the proleptic Gregorian calendar is a Monday (= 1). -/
def SDate.weekday (d : SDate) : Nat := (d.rd % 7).toNat

/-- Validity of a date, as enforced by chrono's constructors: month 1-12,
day within the month, year within chrono's representable range. -/
def SDate.valid (d : SDate) : Bool :=
  decide (1 ≤ d.month) && decide (d.month ≤ 12) && decide (1 ≤ d.day) &&
    decide (d.day ≤ daysInMonth d) &&
    decide (-262144 ≤ d.year) && decide (d.year ≤ 262143)

/-- Validity of a time of day. -/
def STime.valid (t : STime) : Bool :=
  decide (t.hour ≤ 23) && decide (t.minute ≤ 59) && decide (t.sec ≤ 59) &&
    decide (t.nano ≤ 999999999)

/-- Validity of an instant. -/
def SDateTime.valid (t : SDateTime) : Bool := t.date.valid && t.time.valid

/-- A sort key realising chrono's date ordering on valid dates
(lexicographic in year, month, day). -/
def SDate.key (d : SDate) : Int := (d.year * 12 + (d.month : Int)) * 32 + d.day

/-- A sort key realising chrono's time ordering on valid times. -/
def STime.key (t : STime) : Int :=
  (((t.hour * 60 + t.minute) * 60 + t.sec : Nat) : Int) * 1000000000 + t.nano

/-- A sort key realising chrono's instant ordering on valid instants. -/
def SDateTime.key (t : SDateTime) : Int := t.date.key * 86400000000000 + t.time.key

/-! ## Claims' orderings: `≤` / `<` on dates, times and instants are the
orderings of the respective keys. -/

instance : LE SDate := ⟨fun a b => a.key ≤ b.key⟩
instance : LT SDate := ⟨fun a b => a.key < b.key⟩
instance (a b : SDate) : Decidable (a ≤ b) :=
  inferInstanceAs (Decidable (a.key ≤ b.key))
instance (a b : SDate) : Decidable (a < b) :=
  inferInstanceAs (Decidable (a.key < b.key))

instance : LE STime := ⟨fun a b => a.key ≤ b.key⟩
instance : LT STime := ⟨fun a b => a.key < b.key⟩
instance (a b : STime) : Decidable (a ≤ b) :=
  inferInstanceAs (Decidable (a.key ≤ b.key))
instance (a b : STime) : Decidable (a < b) :=
  inferInstanceAs (Decidable (a.key < b.key))

instance : LE SDateTime := ⟨fun a b => a.key ≤ b.key⟩
instance : LT SDateTime := ⟨fun a b => a.key < b.key⟩
instance (a b : SDateTime) : Decidable (a ≤ b) :=
  inferInstanceAs (Decidable (a.key ≤ b.key))
instance (a b : SDateTime) : Decidable (a < b) :=
  inferInstanceAs (Decidable (a.key < b.key))

/-! ## Parsed expressions (`parse.rs` data model)

Field values (`Minute`, `Hour`, `DayOfMonth`, `Month`, `DayOfWeek`, ...) are
represented by their raw 1-based (or 0-based, for minutes and hours) numeric
value; the per-type `u8::from` conversions are applied by the compiler below
exactly where the source applies them. -/

/-- `OrsExpr<E>`: one value, a range, or a step expression. -/
inductive OrsExpr where
  | one (v : Nat)
  | range (s e : Nat)
  | step (s e k : Nat)
deriving DecidableEq, Repr

/-- `OrsExpr::normalize` from the source: equal endpoints collapse to one
value; a step of one collapses to a range. -/
def OrsExpr.normalize : OrsExpr → OrsExpr
  | .range a b => if a = b then .one a else .range a b
  | .step a b k => if a = b then .one a else if k = 1 then .range a b else .step a b k
  | x => x

/-- `Exprs<E>`: a non-empty list of ORS expressions. -/
structure Exprs where
  first : OrsExpr
  tail : List OrsExpr
deriving DecidableEq, Repr

/-- Iteration order of `Exprs` (`once(first).chain(tail)`). -/
def Exprs.toList (es : Exprs) : List OrsExpr := es.first :: es.tail

/-- `Expr<E>`: `*` or a list of ORS expressions. -/
inductive Expr where
  | all
  | many (es : Exprs)
deriving DecidableEq, Repr

/-- `parse::Last`: the `L` forms of a day-of-month expression. -/
inductive DomLast where
  | day
  | weekday
  | offset (o : Nat)
  | offsetWeekday (o : Nat)
deriving DecidableEq, Repr

/-- `parse::DayOfMonthExpr`. -/
inductive DayOfMonthExpr where
  | all
  | last (l : DomLast)
  | closestWeekday (d : Nat)
  | many (es : Exprs)
deriving DecidableEq, Repr

/-- `parse::DayOfWeekExpr`.  Days are stored 1-based (1 = Sunday .. 7 =
Saturday, the `number_from_sunday` convention of the parser). -/
inductive DayOfWeekExpr where
  | all
  | last (d : Nat)
  | nth (d : Nat) (n : Nat)
  | many (es : Exprs)
deriving DecidableEq, Repr

/-- `parse::CronExpr`: one expression per field. -/
structure CronExpr where
  minutes : Expr
  hours : Expr
  doms : DayOfMonthExpr
  months : Expr
  dows : DayOfWeekExpr
deriving DecidableEq, Repr

/-! ## The compiler (`add_ors` and `compile` of each field type)

The five `add_ors` functions of the source are textually identical up to the
field constants (width, valid-bit mask, raw MIN/MAX) and the `u8::from`
conversion of the field's value type, so they are embedded once,
parameterised by those constants. -/

/-- The per-field constants used by `add_ors`. -/
structure FieldSpec where
  /-- integer width of the mask type (`Self::BITS`) -/
  width : Nat
  /-- the mask of valid bits (`Self::ALL` / `Self::DAY_BITS`) -/
  all : Nat
  /-- `Self::UPPER_BIT_BOUND` = number of trailing ones of `all` -/
  upper : Nat
  /-- the raw parse-level `E::MIN` -/
  minRaw : Nat
  /-- the raw parse-level `E::MAX` -/
  maxRaw : Nat
  /-- the `u8::from` conversion of the field value type -/
  conv : Nat → Nat

/-- Inclusive range `a..=b` as a list. -/
def rangeIncl (a b : Nat) : List Nat := List.range' a (b + 1 - a)

/-- Helper for `everyNth`: keep an element when the countdown hits zero,
then restart the countdown at `k - 1`. -/
def everyNthAux : Nat → List Nat → Nat → List Nat
  | _, [], _ => []
  | 0, a :: rest, k => a :: everyNthAux (k - 1) rest k
  | i + 1, _ :: rest, k => everyNthAux i rest k

/-- Rust `Iterator::step_by(k)`: every `k`-th element of a list, starting
with the first (`k ≥ 1` always holds at the call sites, since steps are
validated). -/
def everyNth (l : List Nat) (k : Nat) : List Nat := everyNthAux 0 l k

/-- `add_ors` of `Minutes`/`Hours`/`Months`/`DaysOfMonth`/`DaysOfWeek` (they
share one algorithm; `fs` supplies the constants of the respective impl).
Range endpoints are compared on raw values, which agrees with the source's
typed comparison because every `u8::from` conversion is monotone. -/
def addOrs (fs : FieldSpec) (pattern : Nat) (expr : OrsExpr) : Nat :=
  match expr.normalize with
  | .one v => pattern ||| (1 <<< fs.conv v)
  | .range s e =>
    if s ≤ e then
      let s := fs.conv s
      let e := fs.conv e
      let bits := clearLow fs.all s
      let bits := if e < fs.upper then shlShr fs.width bits (fs.width - (e + 1)) else bits
      pattern ||| bits
    else
      let s := fs.conv s - 1
      let e := fs.conv e + 1
      let topBits := clearLow fs.all s
      let bottomBits := shlShr fs.width fs.all (fs.width - e)
      pattern ||| (topBits ||| bottomBits)
  | .step s e k =>
    if s ≤ e then
      (everyNth (rangeIncl (fs.conv s) (fs.conv e)) k).foldl
        (fun p v => p ||| (1 <<< v)) pattern
    else
      -- `back.chain(front).step_by(step)` of the source: note the mixed
      -- converted start / raw `E::MAX` and raw `E::MIN` / converted end.
      (everyNth (rangeIncl (fs.conv s) fs.maxRaw ++ rangeIncl fs.minRaw (fs.conv e)) k).foldl
        (fun p v => p ||| (1 <<< v)) pattern

namespace Minutes

/-- `Minutes::ALL`: bits 0-59. -/
def ALL : Nat := 0x0FFFFFFFFFFFFFFF

/-- Field constants of `impl Minutes` (`u8::from` of a `Minute` is the
identity). -/
def fieldSpec : FieldSpec := ⟨64, ALL, 60, 0, 59, id⟩

/-- `Minutes::compile`. -/
def compile : Expr → Nat
  | .all => ALL
  | .many es => es.toList.foldl (addOrs fieldSpec) 0

/-- `Minutes::contains`: tests the bit of the minute value 0-59. -/
def contains (mask : Nat) (dt : SDateTime) : Bool := mask.testBit dt.time.minute

end Minutes

namespace Hours

/-- `Hours::ALL`: bits 0-23. -/
def ALL : Nat := 0x00FFFFFF

/-- Field constants of `impl Hours`. -/
def fieldSpec : FieldSpec := ⟨32, ALL, 24, 0, 23, id⟩

/-- `Hours::compile`. -/
def compile : Expr → Nat
  | .all => ALL
  | .many es => es.toList.foldl (addOrs fieldSpec) 0

/-- `Hours::contains_hour`. -/
def containsHour (mask : Nat) (t : STime) : Bool := mask.testBit t.hour

/-- `Hours::contains`. -/
def contains (mask : Nat) (dt : SDateTime) : Bool := containsHour mask dt.time

end Hours

namespace Months

/-- `Months::ALL`: bits 0-11. -/
def ALL : Nat := 0x0FFF

/-- Field constants of `impl Months` (`u8::from` of a `Month` is the
zero-based month). -/
def fieldSpec : FieldSpec := ⟨16, ALL, 12, 1, 12, fun v => v - 1⟩

/-- `Months::compile`. -/
def compile : Expr → Nat
  | .all => ALL
  | .many es => es.toList.foldl (addOrs fieldSpec) 0

/-- `Months::contains_month`: tests the bit of the zero-based month. -/
def containsMonth (mask : Nat) (d : SDate) : Bool := mask.testBit d.month0

/-- `Months::contains`. -/
def contains (mask : Nat) (dt : SDateTime) : Bool := containsMonth mask dt.date

end Months

/-- `DaysOfMonthKind`. -/
inductive DaysOfMonthKind where
  | Pattern
  | Star
  | Last
  | Weekday
  | LastWeekday
deriving DecidableEq, Repr

/-- `DaysOfMonth`: a kind tag and a `u32` payload. -/
structure DaysOfMonth where
  kind : DaysOfMonthKind
  payload : Nat
deriving DecidableEq, Repr

/-- `DaysOfWeekKind`. -/
inductive DaysOfWeekKind where
  | Pattern
  | Star
  | Last
  | Nth
deriving DecidableEq, Repr

/-- `DaysOfWeek`: a kind tag and a `u8` payload. -/
structure DaysOfWeek where
  kind : DaysOfWeekKind
  payload : Nat
deriving DecidableEq, Repr

/-- The `is_weekend` closure of `DaysOfMonth::contains_date`
(weekday 6 = Saturday, 0 = Sunday). -/
def isWeekend (w : Nat) : Bool := w == 6 || w == 0

/-- The `is_weekday` closure. -/
def isWeekdayNum (w : Nat) : Bool := !isWeekend w

namespace DaysOfMonth

/-- `DaysOfMonth::DAY_BITS`: bits 0-30. -/
def DAY_BITS : Nat := 0x07FFFFFFF

/-- `DaysOfMonth::ONE_DAY_BITS`. -/
def ONE_DAY_BITS : Nat := 0b11111

/-- Field constants of `impl DaysOfMonth` (`u8::from` of a `DayOfMonth` is
the zero-based day). -/
def fieldSpec : FieldSpec := ⟨32, DAY_BITS, 31, 1, 31, fun v => v - 1⟩

/-- `DaysOfMonth::compile`. -/
def compile : DayOfMonthExpr → DaysOfMonth
  | .all => ⟨.Star, 0⟩
  | .last .day => ⟨.Last, 0⟩
  | .last .weekday => ⟨.LastWeekday, 0⟩
  | .last (.offset o) => ⟨.Last, o⟩
  | .last (.offsetWeekday o) => ⟨.LastWeekday, o⟩
  | .closestWeekday d => ⟨.Weekday, (d - 1) + 1⟩
  | .many es => ⟨.Pattern, es.toList.foldl (addOrs fieldSpec) 0⟩

/-- `DaysOfMonth::is_star`. -/
def isStar (p : DaysOfMonth) : Bool := p.kind == .Star

/-- `DaysOfMonth::is_last`. -/
def isLast (p : DaysOfMonth) : Bool := p.kind == .Last || p.kind == .LastWeekday

/-- `DaysOfMonth::one_value`: the payload masked to `ONE_DAY_BITS`. -/
def oneValue (p : DaysOfMonth) : Nat := p.payload % 32

/-- `DaysOfMonth::first_set0`. -/
def firstSet0 (p : DaysOfMonth) : Option Nat :=
  let trailing := trailingZeros 32 p.payload
  if trailing < 32 then some trailing else none

/-- `DaysOfMonth::first_set`. -/
def firstSet (p : DaysOfMonth) : Option Nat := (firstSet0 p).map (· + 1)

/-- `DaysOfMonth::contains_date`.  `dim - day` is `u32` subtraction in the
source; it cannot underflow on a valid date, and `day_offsetted - dim` in
the offset branch is modelled with release-mode wrapping semantics. -/
def containsDate (p : DaysOfMonth) (date : SDate) : Bool :=
  let dim := daysInMonth date
  let day := date.day
  match p with
  | ⟨.Pattern, pattern⟩ => pattern.testBit (day - 1)
  | ⟨.Last, 0⟩ => day == dim
  | ⟨.Last, offset⟩ => day + offset == dim
  | ⟨.LastWeekday, 0⟩ =>
    let w := date.weekday
    (isWeekdayNum w && day == dim) || (w == 5 && dim - day < 3)
  | ⟨.LastWeekday, offset⟩ =>
    let w := date.weekday
    let dayOffsetted := day + offset
    (isWeekdayNum w && dayOffsetted == dim)
      || (w == 1 && wsub32 dayOffsetted dim < 3)
      || (w == 5 && dayOffsetted + 1 == dim)
  | ⟨.Weekday, expectedDay⟩ =>
    let w := date.weekday
    (isWeekdayNum w && day == expectedDay)
      || (w == 1 && day - 1 == expectedDay)
      || (w == 1 && day == 3 && expectedDay == 1)
      || (w == 5 && day + 1 == expectedDay)
      || (w == 5 && day + 2 == expectedDay && expectedDay == dim)
  | ⟨.Star, _⟩ => true

/-- `DaysOfMonth::contains`. -/
def contains (p : DaysOfMonth) (dt : SDateTime) : Bool := containsDate p dt.date

end DaysOfMonth

namespace DaysOfWeek

/-- `DaysOfWeek::DAY_BITS`: bits 0-6. -/
def DAY_BITS : Nat := 0b01111111

/-- Field constants of `impl DaysOfWeek` (`u8::from` of a `DayOfWeek` is
`num_days_from_sunday`, i.e. the 1-based day minus one). -/
def fieldSpec : FieldSpec := ⟨8, DAY_BITS, 7, 1, 7, fun v => v - 1⟩

/-- `DaysOfWeek::compile`. -/
def compile : DayOfWeekExpr → DaysOfWeek
  | .all => ⟨.Star, 0⟩
  | .last d => ⟨.Last, d - 1⟩
  | .nth d n => ⟨.Nth, (n <<< 3) ||| (d - 1)⟩
  | .many es => ⟨.Pattern, es.toList.foldl (addOrs fieldSpec) 0⟩

/-- `DaysOfWeek::is_star`. -/
def isStar (p : DaysOfWeek) : Bool := p.kind == .Star

/-- `DaysOfWeek::last`. -/
def last (p : DaysOfWeek) : Option Nat :=
  if p.kind == .Last then some p.payload else none

/-- `DaysOfWeek::nth`: unpacks `(nth << 3) | weekday`. -/
def nth (p : DaysOfWeek) : Option (Nat × Nat) :=
  if p.kind == .Nth then some (p.payload >>> 3, p.payload % 8) else none

/-- `DaysOfWeek::contains_date`. -/
def containsDate (p : DaysOfWeek) (d : SDate) : Bool :=
  match p with
  | ⟨.Pattern, pattern⟩ => pattern.testBit d.weekday
  | ⟨.Nth, bits⟩ =>
    let weekday := bits % 8
    let nthVal := bits >>> 3
    weekday == d.weekday && (d.day0 / 7) + 1 == nthVal
  | ⟨.Last, weekday⟩ => weekday == d.weekday && daysInMonth d < d.day + 7
  | ⟨.Star, _⟩ => true

/-- `DaysOfWeek::contains`. -/
def contains (p : DaysOfWeek) (dt : SDateTime) : Bool := containsDate p dt.date

end DaysOfWeek

/-! ## The compiled schedule -/

/-- The compiled `Cron` value. -/
structure Cron where
  minutes : Nat
  hours : Nat
  dom : DaysOfMonth
  months : Nat
  dow : DaysOfWeek
deriving DecidableEq, Repr

/-- `Cron::new`: compile every field of a parsed expression. -/
def Cron.new (expr : CronExpr) : Cron where
  minutes := Minutes.compile expr.minutes
  hours := Hours.compile expr.hours
  dom := DaysOfMonth.compile expr.doms
  months := Months.compile expr.months
  dow := DaysOfWeek.compile expr.dows

/-- `MAX_31_MONTHS` from `Cron::any`. -/
def MAX_31_MONTHS : Nat := 0b101011010101

/-- `MAX_30_MONTHS` from `Cron::any`. -/
def MAX_30_MONTHS : Nat := 0b010100101000

/-- The `max` computation of `Cron::any`: the largest day count implied by
the permitted months bitmask. -/
def cronMaxDay (months : Nat) : Nat :=
  if (months &&& MAX_31_MONTHS) != 0 then 31
  else if (months &&& MAX_30_MONTHS) != 0 then 30
  else 29

/-- `Cron::any`.  In the pattern case the source unwraps
`first_set().expect(..)`, which cannot panic on a compiled expression (at
least one bit is always set); the `none` branch is modelled by the sentinel
32, which exceeds every month length. -/
def Cron.any (c : Cron) : Bool :=
  if c.dow.isStar then
    if c.dom.isStar then true
    else if c.dom.isLast && c.dom.oneValue == 0 then true
    else
      let firstSet :=
        if c.dom.isLast then c.dom.oneValue + 1
        else (c.dom.firstSet).getD 32
      decide (firstSet ≤ cronMaxDay c.months)
  else true

/-- `Cron::contains`. -/
def Cron.contains (c : Cron) (dt : SDateTime) : Bool :=
  let containsMinutesHourMonths :=
    Minutes.contains c.minutes dt && Hours.contains c.hours dt &&
      Months.contains c.months dt
  if !containsMinutesHourMonths then false
  else
    match c.dom.isStar, c.dow.isStar with
    | true, true => true
    | true, false => c.dow.contains dt
    | false, true => c.dom.contains dt
    | false, false => c.dow.contains dt || c.dom.contains dt

/-- `Cron::contains_date`. -/
def Cron.containsDate (c : Cron) (date : SDate) : Bool :=
  if !(Months.containsMonth c.months date) then false
  else
    match c.dom.isStar, c.dow.isStar with
    | true, true => true
    | true, false => c.dow.containsDate date
    | false, true => c.dom.containsDate date
    | false, false => c.dow.containsDate date || c.dom.containsDate date

/-! ## The grammar parser (`parse.rs`)

The nom combinators are embedded as functions from a list of characters to
an optional (remaining input, value) pair; `none` is a parse error (the
source deliberately collapses all nom error detail to one opaque error). -/

/-- A nom-style parser. -/
def Parser (α : Type) : Type := List Char → Option (List Char × α)

/-- nom `char(c)`. -/
def pchar (c : Char) : Parser Char := fun input =>
  match input with
  | x :: rest => if x = c then some (rest, c) else none
  | [] => none

/-- nom `opt(p)`: never fails, rolls the input back on failure of `p`. -/
def popt {α : Type} (p : Parser α) : Parser (Option α) := fun input =>
  match p input with
  | some (rest, a) => some (rest, some a)
  | none => some (input, none)

/-- nom `alt`: first parser that succeeds wins. -/
def palt {α : Type} : List (Parser α) → Parser α
  | [] => fun _ => none
  | p :: ps => fun input =>
    match p input with
    | some r => some r
    | none => palt ps input

/-- map a parser's result. -/
def pmap {α β : Type} (p : Parser α) (g : α → β) : Parser β := fun input =>
  (p input).map (fun r => (r.1, g r.2))

/-- nom `digit1`: one or more ASCII digits, maximal munch. -/
def digit1 : Parser (List Char) := fun input =>
  let ds := input.takeWhile Char.isDigit
  if ds.isEmpty then none else some (input.drop ds.length, ds)

/-- nom `space1`: one or more spaces or tabs. -/
def space1 : Parser (List Char) := fun input =>
  let ds := input.takeWhile (fun c => c == ' ' || c == '\t')
  if ds.isEmpty then none else some (input.drop ds.length, ds)

/-- nom `tag_no_case(tag)`. -/
def tagNoCase (tag : List Char) : Parser (List Char) := fun input =>
  let pre := input.take tag.length
  if pre.length = tag.length ∧ pre.map Char.toLower = tag.map Char.toLower then
    some (input.drop tag.length, pre)
  else none

/-- The numeric value of a digit string. -/
def natOfDigits (ds : List Char) : Nat :=
  ds.foldl (fun acc c => 10 * acc + (c.toNat - 48)) 0

/-! ### The bounded value types: fallible construction (`TryFrom<u8>`) -/

/-- `Minute::try_from`: 0-59 (the source only checks `value <= MAX` since
`MIN` is 0). -/
def Minute.tryFrom (v : Nat) : Option Nat := if v ≤ 59 then some v else none

/-- `Hour::try_from`: 0-23. -/
def Hour.tryFrom (v : Nat) : Option Nat := if v ≤ 23 then some v else none

/-- `DayOfMonth::try_from`: 1-31. -/
def DayOfMonth.tryFrom (v : Nat) : Option Nat :=
  if 1 ≤ v ∧ v ≤ 31 then some v else none

/-- `DayOfMonthOffset::try_from`: 1-30. -/
def DayOfMonthOffset.tryFrom (v : Nat) : Option Nat :=
  if 1 ≤ v ∧ v ≤ 30 then some v else none

/-- `Month::try_from`: 1-12. -/
def Month.tryFrom (v : Nat) : Option Nat :=
  if 1 ≤ v ∧ v ≤ 12 then some v else none

/-- `NthDay::try_from`: 1-5. -/
def NthDay.tryFrom (v : Nat) : Option Nat :=
  if 1 ≤ v ∧ v ≤ 5 then some v else none

/-- `DayOfWeek::try_from`: 1-7 (Sun-Sat), kept 1-based here; the compiler
applies `num_days_from_sunday` (i.e. minus one). -/
def DayOfWeek.tryFrom (v : Nat) : Option Nat :=
  if 1 ≤ v ∧ v ≤ 7 then some v else none

/-- `Step::<E>::try_from`: `MIN = E::MIN | 1`, `MAX = E::MAX - E::MIN`. -/
def Step.tryFrom (emin emax : Nat) (v : Nat) : Option Nat :=
  if (emin ||| 1) ≤ v ∧ v ≤ emax - emin then some v else none

/-- `map_digit1::<E>()`: parse a digit run, convert through `u8` (failing
above 255 like `s.parse::<u8>()`), then range-check with `try_from`. -/
def mapDigit1 (tryFrom : Nat → Option Nat) : Parser Nat := fun input => do
  let (rest, ds) ← digit1 input
  let v := natOfDigits ds
  if v ≤ 255 then
    match tryFrom v with
    | some value => some (rest, value)
    | none => none
  else none

/-- The raw `MIN`/`MAX` of a field value type, as used by `ors_expr` for
`*` starts and open step ends, and by `step_digit` for the step bounds. -/
structure ValueSpec where
  min : Nat
  max : Nat

/-- `ValueSpec` of `Minute`. -/
def minuteVS : ValueSpec := ⟨0, 59⟩
/-- `ValueSpec` of `Hour`. -/
def hourVS : ValueSpec := ⟨0, 23⟩
/-- `ValueSpec` of `DayOfMonth`. -/
def domVS : ValueSpec := ⟨1, 31⟩
/-- `ValueSpec` of `Month`. -/
def monthVS : ValueSpec := ⟨1, 12⟩
/-- `ValueSpec` of `DayOfWeek`. -/
def dowVS : ValueSpec := ⟨1, 7⟩

/-- `step_digit::<E>()`. -/
def stepDigit (vs : ValueSpec) : Parser Nat := mapDigit1 (Step.tryFrom vs.min vs.max)

/-- `ors_expr`: a single value, a range, or a step expression. -/
def orsExpr (vs : ValueSpec) (f : Parser Nat) : Parser OrsExpr := fun input => do
  let (input, value) ←
    match f input with
    | some r => some r
    | none => (pchar '*' input).map (fun r => (r.1, vs.min))
  match popt (palt [pchar '/', pchar '-']) input with
  | some (input, some c) =>
    if c = '/' then
      (stepDigit vs input).map (fun r => (r.1, OrsExpr.step value vs.max r.2))
    else do
      let (input, e) ← f input
      match popt (pchar '/') input with
      | some (input, some _) =>
        (stepDigit vs input).map (fun r => (r.1, OrsExpr.step value e r.2))
      | some (input, none) => some (input, OrsExpr.range value e)
      | none => none
  | some (input, none) => some (input, OrsExpr.one value)
  | none => none

/-- `tail_ors_exprs`: a comma-separated tail of ORS expressions.  The
source's `loop` is given fuel; callers pass `input.length + 1`, which can
never run out because every iteration consumes at least the comma. -/
def tailOrsExprs (f : Parser OrsExpr) : Nat → List Char → Exprs →
    Option (List Char × Exprs)
  | 0, _, _ => none
  | fuel + 1, input, exprs =>
    match pchar ',' input with
    | none => some (input, exprs)
    | some (input2, _) =>
      match f input2 with
      | none => none
      | some (rest, e) =>
        tailOrsExprs f fuel rest { exprs with tail := exprs.tail ++ [e] }

/-- `expr`: the generic field parser used by the minute, hour and month
fields (`*`, `*/step`, or a comma list). -/
def exprParser (vs : ValueSpec) (f : Parser Nat) : Parser Expr := fun input =>
  match pchar '*' input with
  | some (input, _) =>
    match pchar '/' input with
    | none => some (input, Expr.all)
    | some (input, _) =>
      match stepDigit vs input with
      | none => none
      | some (input, step) =>
        (tailOrsExprs (orsExpr vs f) (input.length + 1) input
            ⟨OrsExpr.step vs.min vs.max step, []⟩).map
          (fun r => (r.1, Expr.many r.2))
  | none =>
    match orsExpr vs f input with
    | none => none
    | some (input, e) =>
      (tailOrsExprs (orsExpr vs f) (input.length + 1) input ⟨e, []⟩).map
        (fun r => (r.1, Expr.many r.2))

/-- The `month` atom parser: a numeral or a case-insensitive name. -/
def monthAtom : Parser Nat := palt
  [mapDigit1 Month.tryFrom,
   pmap (tagNoCase ['J', 'A', 'N']) (fun _ => 1),
   pmap (tagNoCase ['F', 'E', 'B']) (fun _ => 2),
   pmap (tagNoCase ['M', 'A', 'R']) (fun _ => 3),
   pmap (tagNoCase ['A', 'P', 'R']) (fun _ => 4),
   pmap (tagNoCase ['M', 'A', 'Y']) (fun _ => 5),
   pmap (tagNoCase ['J', 'U', 'N']) (fun _ => 6),
   pmap (tagNoCase ['J', 'U', 'L']) (fun _ => 7),
   pmap (tagNoCase ['A', 'U', 'G']) (fun _ => 8),
   pmap (tagNoCase ['S', 'E', 'P']) (fun _ => 9),
   pmap (tagNoCase ['O', 'C', 'T']) (fun _ => 10),
   pmap (tagNoCase ['N', 'O', 'V']) (fun _ => 11),
   pmap (tagNoCase ['D', 'E', 'C']) (fun _ => 12)]

/-- The `dow` atom parser: a numeral or a case-insensitive name
(1 = Sunday .. 7 = Saturday). -/
def dowAtom : Parser Nat := palt
  [mapDigit1 DayOfWeek.tryFrom,
   pmap (tagNoCase ['S', 'U', 'N']) (fun _ => 1),
   pmap (tagNoCase ['M', 'O', 'N']) (fun _ => 2),
   pmap (tagNoCase ['T', 'U', 'E']) (fun _ => 3),
   pmap (tagNoCase ['W', 'E', 'D']) (fun _ => 4),
   pmap (tagNoCase ['T', 'H', 'U']) (fun _ => 5),
   pmap (tagNoCase ['F', 'R', 'I']) (fun _ => 6),
   pmap (tagNoCase ['S', 'A', 'T']) (fun _ => 7)]

/-- `minutes_expr`. -/
def minutesExpr : Parser Expr := exprParser minuteVS (mapDigit1 Minute.tryFrom)

/-- `hours_expr`. -/
def hoursExpr : Parser Expr := exprParser hourVS (mapDigit1 Hour.tryFrom)

/-- `months_expr`. -/
def monthsExpr : Parser Expr := exprParser monthVS monthAtom

/-- `dom_expr`: the day-of-month field parser with its `L`/`W` forms. -/
def domExpr : Parser DayOfMonthExpr := fun input =>
  let dom := mapDigit1 DayOfMonth.tryFrom
  match popt (palt [pchar '*', pchar 'L']) input with
  | some (input, some c) =>
    if c = '*' then
      -- `opt(tuple((char('/'), step_digit)))`: rolls back wholly on failure
      match (do
          let (i, _) ← pchar '/' input
          stepDigit domVS i : Option (List Char × Nat)) with
      | some (input, step) =>
        (tailOrsExprs (orsExpr domVS dom) (input.length + 1) input
            ⟨OrsExpr.step 1 31 step, []⟩).map
          (fun r => (r.1, DayOfMonthExpr.many r.2))
      | none => some (input, DayOfMonthExpr.all)
    else
      match popt (palt [pchar '-', pchar 'W']) input with
      | some (input, some m) =>
        if m = '-' then do
          let (input, offset) ← mapDigit1 DayOfMonthOffset.tryFrom input
          match popt (pchar 'W') input with
          | some (input, some _) => some (input, .last (.offsetWeekday offset))
          | some (input, none) => some (input, .last (.offset offset))
          | none => none
        else some (input, .last .weekday)
      | some (input, none) => some (input, .last .day)
      | none => none
  | some (input, none) => do
    let (input, day) ← dom input
    match popt (palt [pchar 'W', pchar '-', pchar '/']) input with
    | some (input, some c) =>
      if c = 'W' then some (input, .closestWeekday day)
      else if c = '-' then do
        let (input, e) ← dom input
        let (input, exprs) ←
          match popt (pchar '/') input with
          | some (input, some _) =>
            (stepDigit domVS input).map
              (fun r => (r.1, Exprs.mk (OrsExpr.step day e r.2) []))
          | some (input, none) => some (input, Exprs.mk (OrsExpr.range day e) [])
          | none => none
        (tailOrsExprs (orsExpr domVS dom) (input.length + 1) input exprs).map
          (fun r => (r.1, DayOfMonthExpr.many r.2))
      else do
        let (input, step) ← stepDigit domVS input
        (tailOrsExprs (orsExpr domVS dom) (input.length + 1) input
            ⟨OrsExpr.step day 31 step, []⟩).map
          (fun r => (r.1, DayOfMonthExpr.many r.2))
    | some (input, none) =>
      (tailOrsExprs (orsExpr domVS dom) (input.length + 1) input ⟨.one day, []⟩).map
        (fun r => (r.1, DayOfMonthExpr.many r.2))
    | none => none
  | none => none

/-- `dow_expr`: the day-of-week field parser.  Note the bare `L` branch:
it immediately yields the single value Saturday (`Many [One 7]`). -/
def dowExpr : Parser DayOfWeekExpr := fun input =>
  match popt (palt [pchar '*', pchar 'L']) input with
  | some (input, some c) =>
    if c = '*' then
      match (do
          let (i, _) ← pchar '/' input
          stepDigit dowVS i : Option (List Char × Nat)) with
      | some (input, step) =>
        (tailOrsExprs (orsExpr dowVS dowAtom) (input.length + 1) input
            ⟨OrsExpr.step 1 7 step, []⟩).map
          (fun r => (r.1, DayOfWeekExpr.many r.2))
      | none => some (input, DayOfWeekExpr.all)
    else some (input, DayOfWeekExpr.many ⟨OrsExpr.one 7, []⟩)
  | some (input, none) => do
    let (input, day) ← dowAtom input
    match popt (palt [pchar 'L', pchar '#', pchar '-', pchar '/']) input with
    | some (input, some c) =>
      if c = 'L' then some (input, .last day)
      else if c = '#' then
        (mapDigit1 NthDay.tryFrom input).map (fun r => (r.1, DayOfWeekExpr.nth day r.2))
      else if c = '-' then do
        let (input, e) ← dowAtom input
        let (input, exprs) ←
          match popt (pchar '/') input with
          | some (input, some _) =>
            (stepDigit dowVS input).map
              (fun r => (r.1, Exprs.mk (OrsExpr.step day e r.2) []))
          | some (input, none) => some (input, Exprs.mk (OrsExpr.range day e) [])
          | none => none
        (tailOrsExprs (orsExpr dowVS dowAtom) (input.length + 1) input exprs).map
          (fun r => (r.1, DayOfWeekExpr.many r.2))
      else do
        let (input, step) ← stepDigit dowVS input
        (tailOrsExprs (orsExpr dowVS dowAtom) (input.length + 1) input
            ⟨OrsExpr.step day 7 step, []⟩).map
          (fun r => (r.1, DayOfWeekExpr.many r.2))
    | some (input, none) =>
      (tailOrsExprs (orsExpr dowVS dowAtom) (input.length + 1) input ⟨.one day, []⟩).map
        (fun r => (r.1, DayOfWeekExpr.many r.2))
    | none => none
  | none => none

/-- The five-field expression parser (`FromStr for CronExpr`). -/
def cronExprParser : Parser CronExpr := fun input => do
  let (input, minutes) ← minutesExpr input
  let (input, _) ← space1 input
  let (input, hours) ← hoursExpr input
  let (input, _) ← space1 input
  let (input, doms) ← domExpr input
  let (input, _) ← space1 input
  let (input, months) ← monthsExpr input
  let (input, _) ← space1 input
  let (input, dows) ← dowExpr input
  some (input, CronExpr.mk minutes hours doms months dows)

/-- `CronExpr::from_str`: the whole input must be consumed
(`all_consuming`). -/
def parseCron (s : String) : Option CronExpr :=
  match cronExprParser s.toList with
  | some ([], e) => some e
  | _ => none

/-- `Cron::from_str`: parse and compile. -/
def cronFromStr (s : String) : Option Cron := (parseCron s).map Cron.new

/-! ## chrono date/time operations used by the search -/

/-- chrono `MIN_DATETIME` (−262144-01-01T00:00:00). -/
def MIN_DATETIME : SDateTime := ⟨⟨-262144, 1, 1⟩, ⟨0, 0, 0, 0⟩⟩

/-- chrono `MAX_DATETIME` (+262143-12-31T23:59:59.999999999). -/
def MAX_DATETIME : SDateTime := ⟨⟨262143, 12, 31⟩, ⟨23, 59, 59, 999999999⟩⟩

/-- chrono `Date::succ_opt` on a valid date: the next day, or `none` past
the largest representable date. -/
def SDate.succOpt (d : SDate) : Option SDate :=
  if d.day < daysInMonth d then some { d with day := d.day + 1 }
  else if d.month < 12 then some ⟨d.year, d.month + 1, 1⟩
  else if d.year < 262143 then some ⟨d.year + 1, 1, 1⟩
  else none

/-- The previous day of a valid date, or `none` before the smallest
representable date (used by `previous_minute`). -/
def SDate.predOpt (d : SDate) : Option SDate :=
  if 1 < d.day then some { d with day := d.day - 1 }
  else if 1 < d.month then some ⟨d.year, d.month - 1, daysInMonth ⟨d.year, d.month - 1, 1⟩⟩
  else if -262144 < d.year then some ⟨d.year - 1, 12, 31⟩
  else none

/-- chrono `Date::with_day`: replace the day, validity-checked. -/
def SDate.withDay (d : SDate) (n : Nat) : Option SDate :=
  if 1 ≤ n ∧ n ≤ daysInMonth d then some { d with day := n } else none

/-- chrono `Date::with_day0`. -/
def SDate.withDay0 (d : SDate) (n : Nat) : Option SDate := d.withDay (n + 1)

/-- chrono `Utc.ymd_opt(..).single()`: a validity-checked date. -/
def ymdOpt (y : Int) (m d : Nat) : Option SDate :=
  if (⟨y, m, d⟩ : SDate).valid then some ⟨y, m, d⟩ else none

/-- chrono `NaiveTime::with_minute`: replace the minute, validity-checked;
seconds and sub-seconds are preserved. -/
def STime.withMinute (t : STime) (m : Nat) : Option STime :=
  if m ≤ 59 then some { t with minute := m } else none

/-- chrono `NaiveTime::from_hms_opt(h, m, s)`. -/
def STime.fromHms (h m s : Nat) : Option STime :=
  if h ≤ 23 ∧ m ≤ 59 ∧ s ≤ 59 then some ⟨h, m, s, 0⟩ else none

/-- The midnight used by `find_next` (`NaiveTime::from_hms(0, 0, 0)`). -/
def midnightTime : STime := ⟨0, 0, 0, 0⟩

/-! ## `minute_floor`, `next_minute`, `previous_minute`,
`next_month_in_year`, `time_bound_for_date` -/

/-- `minute_floor`: truncate an instant to the start of its minute
(`with_second(0).with_nanosecond(0)`). -/
def minuteFloor (t : SDateTime) : SDateTime :=
  { t with time := { t.time with sec := 0, nano := 0 } }

/-- `next_minute`: `checked_add_signed(Duration::minutes(1))` — add one
minute, carrying into hours and days, failing past `MAX_DATETIME`. -/
def nextMinute (t : SDateTime) : Option SDateTime :=
  if t.time.minute < 59 then some { t with time := { t.time with minute := t.time.minute + 1 } }
  else if t.time.hour < 23 then
    some { t with time := { t.time with hour := t.time.hour + 1, minute := 0 } }
  else (t.date.succOpt).map (fun d => ⟨d, { t.time with hour := 0, minute := 0 }⟩)

/-- `previous_minute`: `checked_sub_signed(Duration::minutes(1))`. -/
def prevMinute (t : SDateTime) : Option SDateTime :=
  if 0 < t.time.minute then some { t with time := { t.time with minute := t.time.minute - 1 } }
  else if 0 < t.time.hour then
    some { t with time := { t.time with hour := t.time.hour - 1, minute := 59 } }
  else (t.date.predOpt).map (fun d => ⟨d, { t.time with hour := 23, minute := 59 }⟩)

/-- `next_month_in_year`: the first of the next month, `none` after
December. -/
def nextMonthInYear (d : SDate) : Option SDate :=
  if d.month ≤ 11 then ymdOpt d.year (d.month + 1) 1 else none

/-- `time_bound_for_date`: the end's time of day when the date under search
is the end's date, `none` (unbounded) otherwise. -/
def timeBoundForDate (d : SDate) (end_ : SDateTime) : Option STime :=
  if d = end_.date then some end_.time else none

/-! ## The next-occurrence search (`find_next_*` of `impl Cron`)

`Result<_, OutOfBound>` is modelled as `Except Unit`. -/

/-- `Cron::find_next_minute`: trailing-zero scan of the minute mask with the
already-passed minutes cleared.  Seconds are preserved by `with_minute`. -/
def findNextMinute (c : Cron) (start : STime) : Option STime :=
  let bottomCleared := (c.minutes >>> start.minute) <<< start.minute
  let trailingZeros := trailingZeros 64 bottomCleared
  if trailingZeros < 64 then start.withMinute trailingZeros else none

/-- `Cron::find_next_hour`: trailing-zero scan of the hour mask. -/
def findNextHour (c : Cron) (start : STime) : Option STime :=
  let bottomCleared := (c.hours >>> start.hour) <<< start.hour
  let trailingZeros := trailingZeros 32 bottomCleared
  if trailingZeros < 32 then STime.fromHms trailingZeros 0 0 else none

/-- `Cron::find_next_time`: the next matching time of day, bounded
inclusively by `endOpt` when given. -/
def findNextTime (c : Cron) (start : STime) (endOpt : Option STime) :
    Except Unit (Option STime) :=
  let tail : Unit → Except Unit (Option STime) := fun _ =>
    let nextMinute :=
      ((STime.fromHms (start.hour + 1) 0 0).bind (findNextHour c)).bind (findNextMinute c)
    match nextMinute, endOpt with
    | some nm, some e => if e < nm then .error () else .ok (some nm)
    | some nm, none => .ok (some nm)
    | none, _ => .ok none
  if Hours.containsHour c.hours start then
    match findNextMinute c start, endOpt with
    | some nm, some e => if e < nm then .error () else .ok (some nm)
    | some nm, none => .ok (some nm)
    | none, _ => tail ()
  else tail ()

/-- `Cron::find_next_day_of_month`: the next day of this month matching the
day-of-month field (weekday numbers: 6 = Saturday, 0 = Sunday). -/
def findNextDayOfMonth (c : Cron) (start : SDate) : Option SDate :=
  let dim := daysInMonth start
  (match c.dom.kind with
   | .Last =>
     match c.dom.oneValue with
     | 0 => start.withDay dim
     | offset =>
       -- `days_in_month.checked_sub(offset)?`
       if offset ≤ dim then start.withDay (dim - offset) else none
   | .LastWeekday =>
     match c.dom.oneValue with
     | 0 =>
       match start.withDay dim with
       | none => none
       | some nextDate =>
         if nextDate.weekday = 6 then start.withDay (dim - 1)
         else if nextDate.weekday = 0 then start.withDay (dim - 2)
         else some nextDate
     | offset =>
       if offset ≤ dim then
         let expectedDay := dim - offset
         match start.withDay expectedDay with
         | none => none
         | some nextDate =>
           if nextDate.weekday = 6 ∧ expectedDay = 1 then start.withDay 3
           else if nextDate.weekday = 6 then start.withDay (expectedDay - 1)
           else if nextDate.weekday = 0 then start.withDay (expectedDay + 1)
           else some nextDate
       else none
   | .Weekday =>
     let expectedDay := c.dom.oneValue
     match start.withDay expectedDay with
     | none => none
     | some newDate =>
       if newDate.weekday = 6 ∧ expectedDay = 1 then start.withDay 3
       else if newDate.weekday = 6 then start.withDay (expectedDay - 1)
       else if newDate.weekday = 0 ∧ expectedDay = dim then start.withDay (dim - 2)
       else if newDate.weekday = 0 then start.withDay (expectedDay + 1)
       else some newDate
   | _ =>
     let map := c.dom.payload &&& DaysOfMonth.DAY_BITS
     let currentDay := start.day0
     let bottomCleared := (map >>> currentDay) <<< currentDay
     let trailingZeros := trailingZeros 32 bottomCleared
     if trailingZeros < dim then start.withDay0 trailingZeros else none
  ).filter (fun newDay => decide (start ≤ newDay))

/-- `Cron::find_next_weekday`: the next day of this month matching the
day-of-week field. -/
def findNextWeekday (c : Cron) (start : SDate) : Option SDate :=
  let dim := daysInMonth start
  (match c.dow.kind with
   | .Last =>
     let cronWeekday := c.dow.payload
     let currentWeekday := start.weekday
     let weekdayOffset :=
       if cronWeekday < currentWeekday then 7 - (currentWeekday - cronWeekday)
       else cronWeekday - currentWeekday
     let firstWeekDay := (start.day0 + weekdayOffset) % 7
     let lastDay :=
       if (dim = 29 ∧ firstWeekDay = 0) ∨ (dim = 30 ∧ firstWeekDay ≤ 1)
           ∨ (dim = 31 ∧ firstWeekDay ≤ 2) then
         firstWeekDay + 7 * 4
       else firstWeekDay + 7 * 3
     start.withDay0 lastDay
   | .Nth =>
     let nthVal := c.dow.payload >>> 3
     let cronWeekday := c.dow.payload % 8
     let currentWeekday := start.weekday
     let weekdayOffset :=
       if cronWeekday < currentWeekday then 7 - (currentWeekday - cronWeekday)
       else cronWeekday - currentWeekday
     let firstWeekDay := (start.day0 + weekdayOffset) % 7
     let nthDay := firstWeekDay + 7 * (nthVal - 1)
     start.withDay0 nthDay
   | .Pattern =>
     let currentWeekday := start.weekday
     let map := c.dow.payload &&& DaysOfWeek.DAY_BITS
     let bottomCleared := (map >>> currentWeekday) <<< currentWeekday
     let tz := trailingZeros 8 bottomCleared
     let nextDay :=
       if tz < 8 then start.day0 + (tz - currentWeekday)
       else
         let nextWeek := trailingZeros 8 map
         let remainingDays := (6 - currentWeekday) + 1
         start.day0 + remainingDays + nextWeek
     start.withDay0 nextDay
   | _ => some start
  ).filter (fun newDay => decide (start ≤ newDay))

/-- `Cron::find_next_day`: the OR combination of the two day searches
(`cmp::min` on the two candidate dates). -/
def findNextDay (c : Cron) (start : SDate) : Option SDate :=
  match c.dom.isStar, c.dow.isStar with
  | true, true => some start
  | true, false => findNextWeekday c start
  | false, true => findNextDayOfMonth c start
  | false, false =>
    let nextWeekday := findNextWeekday c start
    let nextDay := findNextDayOfMonth c start
    match nextDay, nextWeekday with
    | some day, some weekday => some (if weekday < day then weekday else day)
    | some day, none => some day
    | none, some day => some day
    | none, none => none

/-- `Cron::find_next_month`: trailing-zero scan of the month mask, yielding
the first of the next permitted month of this year. -/
def findNextMonth (c : Cron) (start : SDate) : Option SDate :=
  let bottomCleared := (c.months >>> start.month0) <<< start.month0
  let trailingZeros := trailingZeros 16 bottomCleared
  if trailingZeros < 16 then ymdOpt start.year (trailingZeros + 1) 1 else none

/-- The `loop` of `Cron::find_next_date`, with fuel.  Each iteration
strictly increases the month, so 12 units of fuel (as passed by
`findNextDate`) can never run out before `next_month_in_year` returns
`none` in December. -/
def findNextDateLoop (c : Cron) : Nat → SDate → SDate → Except Unit (Option SDate)
  | 0, _, _ => .ok none
  | fuel + 1, start, endD =>
    match nextMonthInYear start with
    | none => .ok none
    | some nextMonth =>
      if endD < nextMonth then .error ()
      else
        match findNextMonth c nextMonth with
        | none => .ok none
        | some start2 =>
          if endD < start2 then .error ()
          else
            match findNextDay c start2 with
            | some nextDay =>
              if endD < nextDay then .error () else .ok (some nextDay)
            | none => findNextDateLoop c fuel start2 endD

/-- `Cron::find_next_date`. -/
def findNextDate (c : Cron) (start endD : SDate) : Except Unit (Option SDate) :=
  if Months.containsMonth c.months start then
    match findNextDay c start with
    | some nextDay => if endD < nextDay then .error () else .ok (some nextDay)
    | none => findNextDateLoop c 12 start endD
  else findNextDateLoop c 12 start endD

/-- The year `loop` of `Cron::find_next`, with fuel.  Each iteration jumps
to January 1 of the following year and is cut off at `end_`'s date, so the
fuel chosen by `findNext` can never run out first. -/
def findNextLoop (c : Cron) : Nat → SDate → SDateTime → Option SDateTime
  | 0, _, _ => none
  | fuel + 1, searchDate, end_ =>
    match findNextDate c searchDate end_.date with
    | .ok (some nextDate) =>
      match findNextTime c midnightTime (timeBoundForDate nextDate end_) with
      | .ok (some nextTime) => some ⟨nextDate, nextTime⟩
      | _ => none
    | .error _ => none
    | .ok none =>
      match (ymdOpt (searchDate.year + 1) 1 1).filter
          (fun d => decide (d ≤ end_.date)) with
      | none => none
      | some d => findNextLoop c fuel d end_

/-- `Cron::find_next`: the next matching instant in `[start, end_]`
(`none` both when none exists and when the search leaves the bound). -/
def findNext (c : Cron) (start end_ : SDateTime) : Option SDateTime :=
  let cont : Unit → Option SDateTime := fun _ =>
    match (start.date.succOpt).filter (fun d => decide (d ≤ end_.date)) with
    | none => none
    | some searchDate =>
      findNextLoop c ((end_.date.year - searchDate.year).toNat + 1) searchDate end_
  if c.containsDate start.date then
    match findNextTime c start.time (timeBoundForDate start.date end_) with
    | .ok (some nextTime) => some ⟨start.date, nextTime⟩
    | .error _ => none
    | .ok none => cont ()
  else cont ()

/-- `Cron::next_from`: the next match, the given instant (minute-floored)
included. -/
def nextFrom (c : Cron) (start : SDateTime) : Option SDateTime :=
  let start := minuteFloor start
  if c.any then findNext c start MAX_DATETIME else none

/-- `Cron::next_after`: the next match strictly after the given instant's
minute. -/
def nextAfter (c : Cron) (start : SDateTime) : Option SDateTime :=
  match nextMinute (minuteFloor start) with
  | none => none
  | some start => if c.any then findNext c start MAX_DATETIME else none

/-! ## The bounded iterator (`Cron::iter`, `CronTimesIter`) -/

/-- A `core::ops::Bound<DateTime<Utc>>`. -/
inductive SBound where
  | unbounded
  | included (t : SDateTime)
  | excluded (t : SDateTime)
deriving DecidableEq, Repr

/-- The bound normalisation of `Cron::iter`: unbounded ends become
`MIN_DATETIME`/`MAX_DATETIME`, exclusive ends step one minute in, both ends
are minute-floored, and an inverted window (or an infeasible schedule)
yields no iteration state at all. -/
def iterBounds (c : Cron) (startB endB : SBound) : Option (SDateTime × SDateTime) :=
  if !c.any then none
  else
    let front := (match startB with
      | .unbounded => some MIN_DATETIME
      | .included s => some s
      | .excluded s => nextMinute s).map minuteFloor
    let back := (match endB with
      | .unbounded => some MAX_DATETIME
      | .included e => some e
      | .excluded e => prevMinute e).map minuteFloor
    match front, back with
    | some f, some b => if f ≤ b then some (f, b) else none
    | _, _ => none

/-- `CronTimesIter::next`: one step of the iterator, returning the yielded
instant (if any) and the successor state. -/
def cronIterNext (c : Cron) :
    Option (SDateTime × SDateTime) → Option SDateTime × Option (SDateTime × SDateTime)
  | none => (none, none)
  | some (start, end_) =>
    match findNext c start end_ with
    | some next => (some next, (nextMinute next).map (fun ns => (ns, end_)))
    | none => (none, none)

/-- The first `n` elements produced by the iterator from a given state. -/
def cronIterList (c : Cron) : Nat → Option (SDateTime × SDateTime) → List SDateTime
  | 0, _ => []
  | n + 1, st =>
    match cronIterNext c st with
    | (some t, st2) => t :: cronIterList c n st2
    | (none, _) => []

/-! # Theorems

## Basic facts about the date model -/

/-- A weekday number is always 0-6. -/
theorem SDate.weekday_lt (d : SDate) : d.weekday < 7 := by
  unfold SDate.weekday
  have h0 := Int.emod_nonneg d.rd (by decide : (7 : Int) ≠ 0)
  have h1 := Int.emod_lt_of_pos d.rd (by decide : (0 : Int) < 7)
  omega

/-- `cronMaxDay` is one of 29, 30, 31. -/
theorem cronMaxDay_le (months : Nat) : cronMaxDay months ≤ 31 := by
  unfold cronMaxDay
  split <;> [omega; split <;> omega]

/-! ## C1: the day condition of `contains` -/

/-- The day condition exactly as the specification words it: unconditional
when both day fields are `*`; decided by the restricted one alone when
exactly one is restricted; the inclusive OR of both containment checks when
both are restricted. -/
def dayCondition (c : Cron) (d : SDate) : Bool :=
  if c.dom.isStar && c.dow.isStar then true
  else if c.dom.isStar then c.dow.containsDate d
  else if c.dow.isStar then c.dom.containsDate d
  else c.dom.containsDate d || c.dow.containsDate d

/-- C1: `contains(t)` is true iff the minute, hour and month bits are all
set and the day condition holds, with the historical OR semantics for the
day condition. -/
theorem C1_contains_or_day_semantics (c : Cron) (t : SDateTime) :
    c.contains t =
      (Minutes.contains c.minutes t && Hours.contains c.hours t &&
        Months.contains c.months t && dayCondition c t.date) := by
  simp only [Cron.contains, dayCondition, DaysOfMonth.contains, DaysOfWeek.contains]
  cases hm : Minutes.contains c.minutes t <;>
    cases hh : Hours.contains c.hours t <;>
      cases hmo : Months.contains c.months t <;>
        cases hdom : c.dom.isStar <;>
          cases hdow : c.dow.isStar <;> simp [Bool.or_comm]

/-! ## C10: `contains` ignores seconds and sub-seconds -/

/-- C10: `contains` is insensitive to the second and nanosecond components:
it agrees on an instant and its minute floor. -/
theorem C10_contains_minute_floor (c : Cron) (t : SDateTime) :
    c.contains (minuteFloor t) = c.contains t := rfl

/-! ## C6: the Gregorian leap rule and the last-day forms -/

/-- C6: February has 29 days exactly under the 4/100/400 rule; the `Last`
day-of-month form holds exactly when `day + offset` equals the days in the
month (offset 0 included); and `0 0 L FEB *` matches 2020-02-29 and
2000-02-29 but not 2100-02-29 (which is not even a valid date). -/
theorem C6_leap_rule_and_last_day :
    (∀ y : Int, daysInMonth ⟨y, 2, 1⟩ = 29 ↔ 4 ∣ y ∧ (¬(100 ∣ y) ∨ 400 ∣ y))
    ∧ (∀ (o : Nat) (d : SDate),
        DaysOfMonth.containsDate ⟨.Last, o⟩ d = (d.day + o == daysInMonth d))
    ∧ (cronFromStr ("0 0 L FEB *")).map (fun c =>
        (c.contains ⟨⟨2020, 2, 29⟩, ⟨0, 0, 0, 0⟩⟩,
         c.contains ⟨⟨2000, 2, 29⟩, ⟨0, 0, 0, 0⟩⟩,
         c.contains ⟨⟨2100, 2, 29⟩, ⟨0, 0, 0, 0⟩⟩)) = some (true, true, false)
    ∧ SDate.valid ⟨2100, 2, 29⟩ = false := by
  refine ⟨?_, ?_, by decide, by decide⟩
  · intro y
    show (if ¬(y % 4 = 0) then 28
      else if ¬(y % 100 = 0) then 29
      else if ¬(y % 400 = 0) then 28
      else 29) = 29 ↔ 4 ∣ y ∧ (¬(100 ∣ y) ∨ 400 ∣ y)
    split_ifs <;> omega
  · intro o d
    cases o <;> rfl

/-! ## C2: wrap-around range compilation (code bug)

The specification demands that a wrapping range `start-end` (with
`start > end`) set exactly the bits `start..=max` and `min..=end`.  The
source's wrap branch starts the top run at `u8::from(start) - 1`, one
position too low (the in-code worked example for `FRI-SUN` derives the
shift `5` for Friday, but the code computes `4`), so one extra value below
`start` is also set: `"59-0 23-0 31-1 12-1 *"` also matches minute 58,
hour 22, day 30 and month November. -/

set_option maxHeartbeats 1600000 in
/-- C2: the three spec-mandated instants are contained, but so are instants
with hour 22, minute 58, day 30 and month November, which the claim says
are excluded; the compiled minute mask is `{0, 58, 59}`, not `{0, 59}`. -/
theorem C2_wrap_range_off_by_one :
    (cronFromStr ("59-0 23-0 31-1 12-1 *")).map (fun c =>
      (c.contains ⟨⟨2020, 1, 31⟩, ⟨0, 59, 0, 0⟩⟩,
       c.contains ⟨⟨2020, 1, 1⟩, ⟨23, 0, 0, 0⟩⟩,
       c.contains ⟨⟨2020, 12, 31⟩, ⟨23, 59, 0, 0⟩⟩,
       c.contains ⟨⟨2020, 1, 1⟩, ⟨22, 58, 0, 0⟩⟩,
       c.contains ⟨⟨2020, 11, 30⟩, ⟨23, 59, 0, 0⟩⟩)) =
      some (true, true, true, true, true)
    ∧ (cronFromStr ("59-0 23-0 31-1 12-1 *")).map (fun c => (c.minutes, c.hours)) =
      some (2 ^ 58 + 2 ^ 59 + 1, 2 ^ 22 + 2 ^ 23 + 1) := by
  refine ⟨by decide, by decide⟩

/-! ## C9: wrapped stepped ranges set bits outside the valid range
(code bug)

The wrapped-step chain mixes the `u8::from`-converted start with the raw
`E::MAX`, so for day-of-month, month and day-of-week fields it can step onto
a value one past the last valid bit, violating the source's own
`debug_assert_pattern` invariant. -/

set_option maxHeartbeats 1600000 in
/-- C9: `"0 0 30-2/2 * *"` parses successfully, yet its compiled
day-of-month pattern has bit 31 set — outside `DAY_BITS` (bits 0-30) — so
`payload & !DAY_BITS != 0`, exactly what `debug_assert_pattern` asserts
never happens.  The same happens for months (`"0 0 * 11-2/2 *"`, bit 12)
and weekdays (`"0 0 * * 6-1/2"`, bit 7). -/
theorem C9_wrapped_step_out_of_range_bit :
    (cronFromStr ("0 0 30-2/2 * *")).map (fun c =>
      (c.dom.kind, c.dom.payload.testBit 31,
        (c.dom.payload &&& DaysOfMonth.DAY_BITS) == c.dom.payload)) =
      some (DaysOfMonthKind.Pattern, true, false)
    ∧ (cronFromStr ("0 0 * 11-2/2 *")).map (fun c =>
        (c.months.testBit 12, (c.months &&& Months.ALL) == c.months)) =
      some (true, false)
    ∧ (cronFromStr ("0 0 * * 6-1/2")).map (fun c =>
        (c.dow.kind, c.dow.payload.testBit 7,
          (c.dow.payload &&& DaysOfWeek.DAY_BITS) == c.dow.payload)) =
      some (DaysOfWeekKind.Pattern, true, false) := by
  refine ⟨by decide, by decide, by decide⟩

/-! ## C3: the feasibility check `any()` -/

/-- `trailingZeros` never exceeds the width. -/
theorem trailingZeros_le (w x : Nat) : trailingZeros w x ≤ w := by
  induction w generalizing x with
  | zero => simp [trailingZeros]
  | succ w ih =>
    unfold trailingZeros
    split
    · omega
    · exact Nat.succ_le_succ (ih (x / 2))

/-- A last-kind day-of-month field is not a star. -/
theorem DaysOfMonth.isLast_not_star {p : DaysOfMonth} (h : p.isLast = true) :
    p.isStar = false := by
  cases p with
  | mk k pl => cases k <;> simp_all [DaysOfMonth.isLast, DaysOfMonth.isStar]

/-- A pattern-kind day-of-month field is neither star nor last. -/
theorem DaysOfMonth.pattern_not_star_not_last {p : DaysOfMonth}
    (h : p.kind = .Pattern) : p.isStar = false ∧ p.isLast = false := by
  cases p with
  | mk k pl =>
    cases k <;> simp_all [DaysOfMonth.isLast, DaysOfMonth.isStar]

/-- C3: the case analysis of `any()` — a restricted day-of-week field or a
star day-of-month field makes the schedule feasible; a last-offset
day-of-month form is feasible at offset 0 and otherwise exactly when
`offset + 1` fits under the maximum implied by the months mask; a pattern
is feasible exactly when its lowest set day fits; the two month masks of
the source are exactly the 31-day and 30-day months; and the two spec
examples evaluate as claimed. -/
theorem C3_any_feasibility :
    (∀ c : Cron, c.dow.isStar = false → c.any = true)
    ∧ (∀ c : Cron, c.dom.isStar = true → c.any = true)
    ∧ (∀ c : Cron, c.dow.isStar = true → c.dom.isLast = true →
        c.dom.oneValue = 0 → c.any = true)
    ∧ (∀ c : Cron, c.dow.isStar = true → c.dom.isLast = true →
        c.dom.oneValue ≠ 0 →
        (c.any = true ↔ c.dom.oneValue + 1 ≤ cronMaxDay c.months))
    ∧ (∀ c : Cron, c.dow.isStar = true → c.dom.kind = .Pattern →
        c.dom.payload ≠ 0 →
        (c.any = true ↔ trailingZeros 32 c.dom.payload + 1 ≤ cronMaxDay c.months))
    ∧ (∀ m : Nat, m < 12 →
        (Nat.testBit MAX_31_MONTHS m = true ↔ daysInMonth ⟨2001, m + 1, 1⟩ = 31))
    ∧ (∀ m : Nat, m < 12 →
        (Nat.testBit MAX_30_MONTHS m = true ↔ daysInMonth ⟨2001, m + 1, 1⟩ = 30))
    ∧ (cronFromStr ("* * 31 11 *")).map Cron.any = some false
    ∧ (cronFromStr ("* * 29 2 *")).map Cron.any = some true := by
  refine ⟨?_, ?_, ?_, ?_, ?_, by decide, by decide, by decide, by decide⟩
  · intro c h
    simp [Cron.any, h]
  · intro c h
    by_cases hdow : c.dow.isStar = true <;> simp [Cron.any, h, hdow]
  · intro c hdow hl h0
    simp [Cron.any, hdow, DaysOfMonth.isLast_not_star hl, hl, h0]
  · intro c hdow hl h0
    simp [Cron.any, hdow, DaysOfMonth.isLast_not_star hl, hl, h0]
  · intro c hdow hk h0
    obtain ⟨hs, hl⟩ := DaysOfMonth.pattern_not_star_not_last hk
    have hle := trailingZeros_le 32 c.dom.payload
    by_cases htz : trailingZeros 32 c.dom.payload < 32
    · simp [Cron.any, hdow, hs, hl, DaysOfMonth.firstSet, DaysOfMonth.firstSet0, htz]
    · have h32 : trailingZeros 32 c.dom.payload = 32 := by omega
      have hmax := cronMaxDay_le c.months
      simp [Cron.any, hdow, hs, hl, DaysOfMonth.firstSet, DaysOfMonth.firstSet0, htz, h32]
      omega

/-! ## C7: a bare `L` in the day-of-week field means Saturday -/

/-- C7: `dow_expr` maps a leading `L` to the single-value expression
`Many [One 7]` (Saturday) no matter what follows; compiling it yields the
pattern with only bit 6 set; that pattern's day condition holds exactly on
Saturdays; and the full schedule `0 0 * * L` matches a Saturday midnight
and not a Friday midnight. -/
theorem C7_dow_bare_L_is_saturday :
    (∀ rest : List Char, dowExpr ('L' :: rest) =
        some (rest, DayOfWeekExpr.many ⟨OrsExpr.one 7, []⟩))
    ∧ DaysOfWeek.compile (DayOfWeekExpr.many ⟨OrsExpr.one 7, []⟩) = ⟨.Pattern, 64⟩
    ∧ (∀ d : SDate, DaysOfWeek.containsDate ⟨.Pattern, 64⟩ d = (d.weekday == 6))
    ∧ (cronFromStr ("0 0 * * L")).map (fun c =>
        (c.dow, c.contains ⟨⟨2021, 1, 2⟩, ⟨0, 0, 0, 0⟩⟩,
          c.contains ⟨⟨2021, 1, 1⟩, ⟨0, 0, 0, 0⟩⟩)) =
      some (⟨.Pattern, 64⟩, true, false) := by
  refine ⟨fun rest => rfl, by decide, ?_, by decide⟩
  intro d
  have h : d.weekday < 7 := SDate.weekday_lt d
  show Nat.testBit 64 d.weekday = (d.weekday == 6)
  generalize d.weekday = w at h
  interval_cases w <;> decide

/-- Witness for C3: the `any()` characterisation applied at concrete
schedules (a restricted weekday schedule, a day-29 February schedule, a
last-offset schedule, and the month-mask facts at month 0). -/
theorem C3_any_feasibility_witness :
    ((Cron.new ⟨.all, .all, .all, .all, .many ⟨.one 2, []⟩⟩).any = true)
    ∧ ((Cron.new ⟨.all, .all, .all, .all, .all⟩).any = true)
    ∧ ((Cron.new ⟨.all, .all, .last .day, .all, .all⟩).any = true)
    ∧ ((Cron.new ⟨.all, .all, .many ⟨.one 29, []⟩, .many ⟨.one 2, []⟩, .all⟩).any = true ↔
        trailingZeros 32
            (Cron.new ⟨.all, .all, .many ⟨.one 29, []⟩, .many ⟨.one 2, []⟩, .all⟩).dom.payload
          + 1 ≤
          cronMaxDay (Cron.new ⟨.all, .all, .many ⟨.one 29, []⟩, .many ⟨.one 2, []⟩, .all⟩).months)
    ∧ ((Cron.new ⟨.all, .all, .last (.offset 3), .all, .all⟩).any = true ↔
        (Cron.new ⟨.all, .all, .last (.offset 3), .all, .all⟩).dom.oneValue + 1 ≤
          cronMaxDay (Cron.new ⟨.all, .all, .last (.offset 3), .all, .all⟩).months)
    ∧ (Nat.testBit MAX_31_MONTHS 0 = true ↔ daysInMonth ⟨2001, 1, 1⟩ = 31)
    ∧ (Nat.testBit MAX_30_MONTHS 0 = true ↔ daysInMonth ⟨2001, 1, 1⟩ = 30) := by
  obtain ⟨h1, h2, h3, h4, h5, h6, h7, -⟩ := C3_any_feasibility
  exact ⟨h1 _ (by decide), h2 _ (by decide), h3 _ (by decide) (by decide) (by decide),
    h5 _ (by decide) (by decide) (by decide), h4 _ (by decide) (by decide) (by decide),
    h6 0 (by decide), h7 0 (by decide)⟩

/-! ## C8: range validation at construction and at parse time -/

/-- The ten ASCII digits. -/
def digitChars : List Char := ['0', '1', '2', '3', '4', '5', '6', '7', '8', '9']

/-- `takeWhile isDigit` keeps a digit string whole. -/
theorem takeWhile_digits (ds : List Char) (h : ∀ c ∈ ds, c ∈ digitChars) :
    ds.takeWhile Char.isDigit = ds := by
  induction ds with
  | nil => rfl
  | cons c cs ih =>
    have hc : c ∈ digitChars := h c (List.mem_cons_self ..)
    have hd : Char.isDigit c = true := by fin_cases hc <;> decide
    rw [List.takeWhile_cons_of_pos hd, ih (fun x hx => h x (List.mem_cons_of_mem _ hx))]

/-- `digit1` consumes a whole digit string. -/
theorem digit1_digits (ds : List Char) (h : ∀ c ∈ ds, c ∈ digitChars) (hne : ds ≠ []) :
    digit1 ds = some ([], ds) := by
  unfold digit1
  rw [takeWhile_digits ds h]
  simp [hne, List.drop_length]

/-- `map_digit1` is a parse error whenever the range check rejects the
numeral's value. -/
theorem mapDigit1_none (tf : Nat → Option Nat) (ds : List Char)
    (h : ∀ c ∈ ds, c ∈ digitChars) (hne : ds ≠ [])
    (hfail : tf (natOfDigits ds) = none) :
    mapDigit1 tf ds = none := by
  unfold mapDigit1
  rw [digit1_digits ds h hne]
  by_cases h255 : natOfDigits ds ≤ 255 <;> simp [h255, hfail]

/-- A digit is not one of the cron marker characters. -/
theorem digit_ne_marks (c : Char) (hc : c ∈ digitChars) :
    c ≠ '*' ∧ c ≠ 'L' := by fin_cases hc <;> decide

/-- A minute field whose numeral exceeds 59 fails to parse. -/
theorem minutesExpr_out_of_range (ds : List Char)
    (h : ∀ c ∈ ds, c ∈ digitChars) (hne : ds ≠ []) (hv : 59 < natOfDigits ds) :
    minutesExpr ds = none := by
  obtain ⟨c, cs, rfl⟩ := List.exists_cons_of_ne_nil hne
  have hc := h c (List.mem_cons_self ..)
  have hmap : mapDigit1 Minute.tryFrom (c :: cs) = none :=
    mapDigit1_none _ _ h hne (by simp [Minute.tryFrom]; omega)
  simp [minutesExpr, exprParser, pchar, (digit_ne_marks c hc).1, orsExpr, hmap]

/-- An hour field whose numeral exceeds 23 fails to parse. -/
theorem hoursExpr_out_of_range (ds : List Char)
    (h : ∀ c ∈ ds, c ∈ digitChars) (hne : ds ≠ []) (hv : 23 < natOfDigits ds) :
    hoursExpr ds = none := by
  obtain ⟨c, cs, rfl⟩ := List.exists_cons_of_ne_nil hne
  have hc := h c (List.mem_cons_self ..)
  have hmap : mapDigit1 Hour.tryFrom (c :: cs) = none :=
    mapDigit1_none _ _ h hne (by simp [Hour.tryFrom]; omega)
  simp [hoursExpr, exprParser, pchar, (digit_ne_marks c hc).1, orsExpr, hmap]

/-- A day-of-month field whose numeral is outside 1-31 fails to parse. -/
theorem domExpr_out_of_range (ds : List Char)
    (h : ∀ c ∈ ds, c ∈ digitChars) (hne : ds ≠ [])
    (hv : natOfDigits ds = 0 ∨ 31 < natOfDigits ds) :
    domExpr ds = none := by
  obtain ⟨c, cs, rfl⟩ := List.exists_cons_of_ne_nil hne
  have hc := h c (List.mem_cons_self ..)
  have hmap : mapDigit1 DayOfMonth.tryFrom (c :: cs) = none :=
    mapDigit1_none _ _ h hne (by simp [DayOfMonth.tryFrom]; omega)
  simp [domExpr, popt, palt, pchar, (digit_ne_marks c hc).1, (digit_ne_marks c hc).2, hmap]

/-- A `*/step` minute field whose step is outside 1-59 fails to parse. -/
theorem minutesExpr_step_out_of_range (ds : List Char)
    (h : ∀ c ∈ ds, c ∈ digitChars) (hne : ds ≠ [])
    (hv : natOfDigits ds = 0 ∨ 59 < natOfDigits ds) :
    minutesExpr ('*' :: '/' :: ds) = none := by
  have hmap : mapDigit1 (Step.tryFrom 0 59) ds = none :=
    mapDigit1_none _ _ h hne (by simp [Step.tryFrom]; omega)
  simp [minutesExpr, exprParser, pchar, stepDigit, minuteVS, hmap]

/-- A three-letter tag fails on an input whose first character differs
case-insensitively. -/
theorem tagNoCase3_ne (a b d : Char) (c : Char) (cs : List Char)
    (hne : c.toLower ≠ a.toLower) : tagNoCase [a, b, d] (c :: cs) = none := by
  unfold tagNoCase
  simp [hne]

/-- A digit never matches the head letter of a month or weekday name. -/
theorem digit_toLower_ne (c : Char) (hc : c ∈ digitChars) (u : Char)
    (hu : u ∈ (['S', 'M', 'T', 'W', 'F', 'J', 'A', 'O', 'N', 'D'] : List Char)) :
    c.toLower ≠ u.toLower := by
  fin_cases hc <;> fin_cases hu <;> decide

/-- A month field whose numeral is outside 1-12 fails to parse. -/
theorem monthsExpr_out_of_range (ds : List Char)
    (h : ∀ c ∈ ds, c ∈ digitChars) (hne : ds ≠ [])
    (hv : natOfDigits ds = 0 ∨ 12 < natOfDigits ds) :
    monthsExpr ds = none := by
  obtain ⟨c, cs, rfl⟩ := List.exists_cons_of_ne_nil hne
  have hc := h c (List.mem_cons_self ..)
  have hmap : mapDigit1 Month.tryFrom (c :: cs) = none :=
    mapDigit1_none _ _ h hne (by simp [Month.tryFrom]; omega)
  have hta := fun u hu => digit_toLower_ne c hc u hu
  simp only [monthsExpr, exprParser, pchar, monthAtom, orsExpr, palt, pmap, hmap]
  simp [(digit_ne_marks c hc).1,
    tagNoCase3_ne _ _ _ _ _ (hta 'J' (by decide)), tagNoCase3_ne _ _ _ _ _ (hta 'F' (by decide)),
    tagNoCase3_ne _ _ _ _ _ (hta 'M' (by decide)), tagNoCase3_ne _ _ _ _ _ (hta 'A' (by decide)),
    tagNoCase3_ne _ _ _ _ _ (hta 'S' (by decide)), tagNoCase3_ne _ _ _ _ _ (hta 'O' (by decide)),
    tagNoCase3_ne _ _ _ _ _ (hta 'N' (by decide)), tagNoCase3_ne _ _ _ _ _ (hta 'D' (by decide))]

/-- A day-of-week field whose numeral is outside 1-7 fails to parse. -/
theorem dowExpr_out_of_range (ds : List Char)
    (h : ∀ c ∈ ds, c ∈ digitChars) (hne : ds ≠ [])
    (hv : natOfDigits ds = 0 ∨ 7 < natOfDigits ds) :
    dowExpr ds = none := by
  obtain ⟨c, cs, rfl⟩ := List.exists_cons_of_ne_nil hne
  have hc := h c (List.mem_cons_self ..)
  have hmap : mapDigit1 DayOfWeek.tryFrom (c :: cs) = none :=
    mapDigit1_none _ _ h hne (by simp [DayOfWeek.tryFrom]; omega)
  have hta := fun u hu => digit_toLower_ne c hc u hu
  simp only [dowExpr, popt, palt, pchar, dowAtom, pmap, hmap]
  simp [hmap, (digit_ne_marks c hc).1, (digit_ne_marks c hc).2,
    tagNoCase3_ne _ _ _ _ _ (hta 'S' (by decide)), tagNoCase3_ne _ _ _ _ _ (hta 'M' (by decide)),
    tagNoCase3_ne _ _ _ _ _ (hta 'T' (by decide)), tagNoCase3_ne _ _ _ _ _ (hta 'W' (by decide)),
    tagNoCase3_ne _ _ _ _ _ (hta 'F' (by decide))]

/-- C8: fallible construction of every bounded field value succeeds exactly
within its declared MIN..=MAX (including the per-field step bounds); a
numeral out of range in a minute, hour, day-of-month, month or day-of-week
field, or in a step, is a parse error; and full five-field expressions with
any out-of-range numeral fail to parse entirely. -/
theorem C8_range_validation :
    (∀ v : Nat, (Minute.tryFrom v).isSome ↔ v ≤ 59)
    ∧ (∀ v : Nat, (Hour.tryFrom v).isSome ↔ v ≤ 23)
    ∧ (∀ v : Nat, (DayOfMonth.tryFrom v).isSome ↔ 1 ≤ v ∧ v ≤ 31)
    ∧ (∀ v : Nat, (DayOfMonthOffset.tryFrom v).isSome ↔ 1 ≤ v ∧ v ≤ 30)
    ∧ (∀ v : Nat, (Month.tryFrom v).isSome ↔ 1 ≤ v ∧ v ≤ 12)
    ∧ (∀ v : Nat, (NthDay.tryFrom v).isSome ↔ 1 ≤ v ∧ v ≤ 5)
    ∧ (∀ v : Nat, (DayOfWeek.tryFrom v).isSome ↔ 1 ≤ v ∧ v ≤ 7)
    ∧ (∀ v : Nat, (Step.tryFrom 0 59 v).isSome ↔ 1 ≤ v ∧ v ≤ 59)
    ∧ (∀ v : Nat, (Step.tryFrom 0 23 v).isSome ↔ 1 ≤ v ∧ v ≤ 23)
    ∧ (∀ v : Nat, (Step.tryFrom 1 31 v).isSome ↔ 1 ≤ v ∧ v ≤ 30)
    ∧ (∀ v : Nat, (Step.tryFrom 1 12 v).isSome ↔ 1 ≤ v ∧ v ≤ 11)
    ∧ (∀ v : Nat, (Step.tryFrom 1 7 v).isSome ↔ 1 ≤ v ∧ v ≤ 6)
    ∧ (∀ ds : List Char, (∀ c ∈ ds, c ∈ digitChars) → ds ≠ [] →
        59 < natOfDigits ds → minutesExpr ds = none)
    ∧ (∀ ds : List Char, (∀ c ∈ ds, c ∈ digitChars) → ds ≠ [] →
        23 < natOfDigits ds → hoursExpr ds = none)
    ∧ (∀ ds : List Char, (∀ c ∈ ds, c ∈ digitChars) → ds ≠ [] →
        natOfDigits ds = 0 ∨ 31 < natOfDigits ds → domExpr ds = none)
    ∧ (∀ ds : List Char, (∀ c ∈ ds, c ∈ digitChars) → ds ≠ [] →
        natOfDigits ds = 0 ∨ 12 < natOfDigits ds → monthsExpr ds = none)
    ∧ (∀ ds : List Char, (∀ c ∈ ds, c ∈ digitChars) → ds ≠ [] →
        natOfDigits ds = 0 ∨ 7 < natOfDigits ds → dowExpr ds = none)
    ∧ (∀ ds : List Char, (∀ c ∈ ds, c ∈ digitChars) → ds ≠ [] →
        natOfDigits ds = 0 ∨ 59 < natOfDigits ds →
        minutesExpr ('*' :: '/' :: ds) = none)
    ∧ ((["60 0 1 1 1", "0 24 1 1 1", "0 0 32 1 1", "0 0 0 1 1", "0 0 1 13 1",
         "0 0 1 0 1", "0 0 1 1 8", "0 0 1 1 0", "*/60 0 1 1 1", "0 0 1-32 1 1",
         "0 0 L-31 1 1", "0 0 L-0 1 1", "0 0 1 1 1#6", "0 0 1 1 1#0",
         "0 0 1 1 1-2/7", "300 0 1 1 1"].all
          (fun s => (parseCron s).isNone)) = true) := by
  refine ⟨?_, ?_, ?_, ?_, ?_, ?_, ?_, ?_, ?_, ?_, ?_, ?_,
    minutesExpr_out_of_range, hoursExpr_out_of_range, domExpr_out_of_range,
    monthsExpr_out_of_range, dowExpr_out_of_range, minutesExpr_step_out_of_range,
    by decide⟩ <;>
  · intro v
    first
    | (unfold Minute.tryFrom; split <;> simp_all)
    | (unfold Hour.tryFrom; split <;> simp_all)
    | (unfold DayOfMonth.tryFrom; split <;> simp_all)
    | (unfold DayOfMonthOffset.tryFrom; split <;> simp_all)
    | (unfold Month.tryFrom; split <;> simp_all)
    | (unfold NthDay.tryFrom; split <;> simp_all)
    | (unfold DayOfWeek.tryFrom; split <;> simp_all)
    | (unfold Step.tryFrom; split <;> simp_all)

/-! ## Bit-level facts used by the search proofs -/

/-- The least set bit found by `trailingZeros` is set, and every bit below
it is clear. -/
theorem trailingZeros_spec (w x : Nat) :
    (trailingZeros w x < w → x.testBit (trailingZeros w x) = true)
    ∧ (∀ j, j < trailingZeros w x → x.testBit j = false) := by
  induction w generalizing x with
  | zero => exact ⟨fun h => absurd h (by omega), fun j hj => absurd hj (by simp [trailingZeros])⟩
  | succ w ih =>
    unfold trailingZeros
    by_cases h : x % 2 = 1
    · refine ⟨fun _ => ?_, fun j hj => absurd hj (by simp [h])⟩
      simp [h, Nat.testBit_zero]
    · simp only [h, if_false]
      obtain ⟨ih1, ih2⟩ := ih (x / 2)
      refine ⟨fun hlt => ?_, fun j hj => ?_⟩
      · rw [Nat.testBit_add_one]
        exact ih1 (by omega)
      · cases j with
        | zero => simp [Nat.testBit_zero]; omega
        | succ j => rw [Nat.testBit_add_one]; exact ih2 j (by simp at hj; omega)

/-- `(x >> m) << m` keeps exactly the bits at positions `≥ m`. -/
theorem testBit_clearLow (x m i : Nat) :
    ((x >>> m) <<< m).testBit i = (decide (m ≤ i) && x.testBit i) := by
  rw [Nat.testBit_shiftLeft]
  by_cases h : m ≤ i
  · have : m + (i - m) = i := by omega
    simp [h, Nat.testBit_shiftRight, this]
  · simp [h]

/-- The scan of `find_next_minute`-style code: if the trailing-zero count of
the cleared mask is below the width, it names a set bit at or above the
current position, with nothing set in between. -/
theorem scan_spec (w x m : Nat) (h : trailingZeros w ((x >>> m) <<< m) < w) :
    x.testBit (trailingZeros w ((x >>> m) <<< m)) = true
    ∧ m ≤ trailingZeros w ((x >>> m) <<< m)
    ∧ ∀ j, m ≤ j → j < trailingZeros w ((x >>> m) <<< m) → x.testBit j = false := by
  obtain ⟨h1, h2⟩ := trailingZeros_spec w ((x >>> m) <<< m)
  have hset := h1 h
  rw [testBit_clearLow] at hset
  have hm : m ≤ trailingZeros w ((x >>> m) <<< m) := by
    by_contra hcon
    simp [show ¬(m ≤ trailingZeros w ((x >>> m) <<< m)) from hcon] at hset
  refine ⟨by simpa [hm] using hset, hm, fun j hj1 hj2 => ?_⟩
  have := h2 j hj2
  rwa [testBit_clearLow, decide_eq_true hj1, Bool.true_and] at this

/-- A bit below the scan start or above the trailing-zero count is not the
least: all bits in `[m, tz)` are clear (distilled stability form: clearing
one known-unset bit does not change the scan). -/
theorem scan_skip (w x m : Nat) (hbit : x.testBit m = false) :
    trailingZeros w ((x >>> m) <<< m) = trailingZeros w ((x >>> (m + 1)) <<< (m + 1)) := by
  have hext : ∀ i, ((x >>> m) <<< m).testBit i = ((x >>> (m + 1)) <<< (m + 1)).testBit i := by
    intro i
    rw [testBit_clearLow, testBit_clearLow]
    by_cases him : m = i
    · subst him
      simp [hbit]
    · by_cases hge : m ≤ i
      · have : m + 1 ≤ i := by omega
        simp [hge, this]
      · have : ¬(m + 1 ≤ i) := by omega
        simp [hge, this]
  have : (x >>> m) <<< m = (x >>> (m + 1)) <<< (m + 1) := Nat.eq_of_testBit_eq hext
  rw [this]

/-! ## Order and validity facts about the date model -/

/-- Date order unfolds to key order. -/
theorem SDate.le_iff (a b : SDate) : a ≤ b ↔ a.key ≤ b.key := Iff.rfl

/-- Strict date order unfolds to key order. -/
theorem SDate.lt_iff (a b : SDate) : a < b ↔ a.key < b.key := Iff.rfl

/-- Instant order unfolds to key order. -/
theorem SDateTime.key_le_iff (a b : SDateTime) : a ≤ b ↔ a.key ≤ b.key := Iff.rfl

/-- Strict instant order unfolds to key order. -/
theorem SDateTime.key_lt_iff (a b : SDateTime) : a < b ↔ a.key < b.key := Iff.rfl

/-- A valid month has 28 to 31 days. -/
theorem daysInMonth_bounds (d : SDate) (h1 : 1 ≤ d.month) (h2 : d.month ≤ 12) :
    28 ≤ daysInMonth d ∧ daysInMonth d ≤ 31 := by
  unfold daysInMonth
  interval_cases h : d.month <;> first
  | (simp; split_ifs <;> omega)
  | simp

/-- `daysInMonth` only looks at the year and month. -/
theorem daysInMonth_set_day (d : SDate) (n : Nat) :
    daysInMonth { d with day := n } = daysInMonth d := rfl

/-- Unfolding the validity of a date. -/
theorem SDate.valid_iff (d : SDate) : d.valid = true ↔
    1 ≤ d.month ∧ d.month ≤ 12 ∧ 1 ≤ d.day ∧ d.day ≤ daysInMonth d ∧
      -262144 ≤ d.year ∧ d.year ≤ 262143 := by
  unfold SDate.valid
  simp [and_assoc]

/-- The key of a valid date determines it. -/
theorem SDate.key_inj {a b : SDate} (ha : a.valid = true) (hb : b.valid = true)
    (h : a.key = b.key) : a = b := by
  rw [SDate.valid_iff] at ha hb
  obtain ⟨ha1, ha2, ha3, ha4, _, _⟩ := ha
  obtain ⟨hb1, hb2, hb3, hb4, _, _⟩ := hb
  have hda := (daysInMonth_bounds a ha1 ha2).2
  have hdb := (daysInMonth_bounds b hb1 hb2).2
  unfold SDate.key at h
  have hy : a.year = b.year := by omega
  have hm : a.month = b.month := by omega
  have hd : a.day = b.day := by omega
  cases a; cases b; simp_all

/-- Key comparison of two dates of the same month is day comparison. -/
theorem SDate.key_same_month (y : Int) (m a b : Nat) :
    (SDate.key ⟨y, m, a⟩ ≤ SDate.key ⟨y, m, b⟩) ↔ a ≤ b := by
  simp only [SDate.key]
  omega

/-- A date of an earlier month of the same year is smaller (days 0-31). -/
theorem SDate.key_month_lt {y : Int} {m1 d1 m2 d2 : Nat} (hm : m1 < m2)
    (hd1 : d1 ≤ 31) : SDate.key ⟨y, m1, d1⟩ < SDate.key ⟨y, m2, d2⟩ := by
  simp only [SDate.key]
  omega

/-- A date of an earlier year is smaller (months 1-12, days 0-31). -/
theorem SDate.key_year_lt {y1 y2 : Int} {m1 d1 m2 d2 : Nat} (hy : y1 < y2)
    (hm1 : m1 ≤ 12) (hd1 : d1 ≤ 31) (hm2 : 1 ≤ m2) :
    SDate.key ⟨y1, m1, d1⟩ < SDate.key ⟨y2, m2, d2⟩ := by
  simp only [SDate.key]
  omega

/-- A time key is non-negative. -/
theorem STime.key_nonneg (t : STime) : 0 ≤ t.key := by
  unfold STime.key
  positivity

/-- A valid time's key is below one day. -/
theorem STime.key_lt_day (t : STime) (h : t.valid = true) : t.key < 86400000000000 := by
  unfold STime.valid at h
  simp at h
  unfold STime.key
  have : (t.hour * 60 + t.minute) * 60 + t.sec ≤ 86399 := by omega
  have h2 : (((t.hour * 60 + t.minute) * 60 + t.sec : Nat) : Int) ≤ 86399 := by
    exact_mod_cast this
  omega

/-- Instants of the same date compare by time. -/
theorem SDateTime.le_same_date {d : SDate} {t1 t2 : STime} :
    (⟨d, t1⟩ : SDateTime) ≤ ⟨d, t2⟩ ↔ t1.key ≤ t2.key := by
  rw [SDateTime.key_le_iff]
  unfold SDateTime.key
  constructor <;> intro h <;> simp at h ⊢ <;> omega

/-- An instant of an earlier date is smaller when both times are valid. -/
theorem SDateTime.lt_of_date_lt {a b : SDateTime} (h : a.date < b.date)
    (ha : a.time.valid = true) :
    a < b := by
  rw [SDateTime.key_lt_iff]
  unfold SDateTime.key
  rw [SDate.lt_iff] at h
  have h1 := STime.key_lt_day a.time ha
  have h2 := STime.key_nonneg b.time
  nlinarith

/-- Instant order forces date order for valid times. -/
theorem SDateTime.date_le_of_le {a b : SDateTime} (h : a ≤ b)
    (hb : b.time.valid = true) : a.date ≤ b.date := by
  by_contra hcon
  rw [SDate.le_iff] at hcon
  have hlt : b.date < a.date := by rw [SDate.lt_iff]; omega
  have := SDateTime.lt_of_date_lt hlt hb
  rw [SDateTime.key_lt_iff] at this
  rw [SDateTime.key_le_iff] at h
  omega

/-! ## Weekday arithmetic and the specification of the date operations -/

/-- The rata-die number is linear in the day. -/
theorem SDate.rd_day (y : Int) (m d : Nat) :
    SDate.rd ⟨y, m, d⟩ = SDate.rd ⟨y, m, 0⟩ + d := by
  simp only [SDate.rd]
  push_cast
  ring

/-- The weekday of a date through the rata-die base of its month: all
same-month weekday facts become modular arithmetic. -/
theorem SDate.weekday_eq (y : Int) (m d : Nat) :
    SDate.weekday ⟨y, m, d⟩ = ((SDate.rd ⟨y, m, 0⟩ + d) % 7).toNat := by
  unfold SDate.weekday
  rw [SDate.rd_day]

/-- `with_day` specified: it succeeds exactly on days of the month,
replacing only the day. -/
theorem SDate.withDay_spec {d : SDate} {n : Nat} {r : SDate}
    (h : d.withDay n = some r) :
    r = { d with day := n } ∧ 1 ≤ n ∧ n ≤ daysInMonth d := by
  unfold SDate.withDay at h
  split_ifs at h with hc
  · exact ⟨by injection h with h; exact h.symm, hc.1, hc.2⟩

/-- `with_day` preserves validity. -/
theorem SDate.withDay_valid {d : SDate} {n : Nat} {r : SDate}
    (hd : d.valid = true) (h : d.withDay n = some r) : r.valid = true := by
  obtain ⟨rfl, h1, h2⟩ := SDate.withDay_spec h
  rw [SDate.valid_iff] at hd ⊢
  rw [daysInMonth_set_day]
  exact ⟨hd.1, hd.2.1, h1, h2, hd.2.2.2.2⟩

/-- `ymd_opt` specified. -/
theorem ymdOpt_spec {y : Int} {m d : Nat} {r : SDate} (h : ymdOpt y m d = some r) :
    r = ⟨y, m, d⟩ ∧ r.valid = true := by
  unfold ymdOpt at h
  split_ifs at h with hc
  · exact ⟨by injection h with h; exact h.symm, by injection h with h; exact h ▸ hc⟩

/-- `daysInMonth` does not depend on the day (canonical day-1 form). -/
theorem daysInMonth_canon (y : Int) (m d : Nat) :
    daysInMonth ⟨y, m, d⟩ = daysInMonth ⟨y, m, 1⟩ := rfl

/-- Constructor form of date validity. -/
theorem SDate.valid_mk (y : Int) (m d : Nat) (h1 : 1 ≤ m) (h2 : m ≤ 12)
    (h3 : 1 ≤ d) (h4 : d ≤ daysInMonth ⟨y, m, 1⟩)
    (h5 : -262144 ≤ y) (h6 : y ≤ 262143) : SDate.valid ⟨y, m, d⟩ = true := by
  rw [SDate.valid_iff, daysInMonth_canon]
  exact ⟨h1, h2, h3, h4, h5, h6⟩

/-- Destructor form of date validity, with the canonical day. -/
theorem SDate.valid_elim {y : Int} {m d : Nat} (h : SDate.valid ⟨y, m, d⟩ = true) :
    1 ≤ m ∧ m ≤ 12 ∧ 1 ≤ d ∧ d ≤ daysInMonth ⟨y, m, 1⟩ ∧
    -262144 ≤ y ∧ y ≤ 262143 := by
  rw [SDate.valid_iff, daysInMonth_canon] at h
  exact h

/-- Same-month dates compare by day. -/
theorem SDate.lt_mk_same_month {y : Int} {m a b : Nat} (h : a < b) :
    (⟨y, m, a⟩ : SDate) < ⟨y, m, b⟩ := by
  rw [SDate.lt_iff]
  simp only [SDate.key]
  omega

theorem SDate.succOpt_spec {d r : SDate} (hd : d.valid = true)
    (h : d.succOpt = some r) :
    r.valid = true ∧ d < r ∧
      (r = { d with day := d.day + 1 } ∨
        (d.day = daysInMonth d ∧ r = ⟨d.year, d.month + 1, 1⟩ ∧ d.month < 12) ∨
        (d.day = daysInMonth d ∧ d.month = 12 ∧ r = ⟨d.year + 1, 1, 1⟩)) := by
  obtain ⟨y, m, dy⟩ := d
  obtain ⟨h1, h2, h3, h4, h5, h6⟩ := SDate.valid_elim hd
  simp only [SDate.succOpt, daysInMonth_canon] at h
  simp only [daysInMonth_canon]
  split_ifs at h with hc1 hc2 hc3
  all_goals injection h with h
  all_goals subst h
  · exact ⟨SDate.valid_mk _ _ _ h1 h2 (by omega) (by omega) h5 h6,
      SDate.lt_mk_same_month (by omega), Or.inl rfl⟩
  · rw [daysInMonth_canon] at hc1
    have hmb0 := daysInMonth_bounds ⟨y, m, 1⟩ (by simp; omega) (by simp; omega)
    have hmb := daysInMonth_bounds ⟨y, m + 1, 1⟩ (by simp) (by simp; omega)
    rw [daysInMonth_canon] at hmb
    refine ⟨SDate.valid_mk _ _ _ (by omega) (by omega) (by omega) (by omega) h5 h6,
      ?_, Or.inr (Or.inl ⟨by omega, rfl, hc2⟩)⟩
    rw [SDate.lt_iff]
    exact SDate.key_month_lt (by omega) (by omega)
  · rw [daysInMonth_canon] at hc1
    have hmb0 := daysInMonth_bounds ⟨y, m, 1⟩ (by simp; omega) (by simp; omega)
    have hmb := daysInMonth_bounds ⟨y + 1, 1, 1⟩ (by simp) (by simp)
    rw [daysInMonth_canon] at hmb
    refine ⟨SDate.valid_mk _ _ _ (by omega) (by omega) (by omega) (by omega)
        (by omega) (by simpa using hc3),
      ?_, Or.inr (Or.inr ⟨by omega, by omega, rfl⟩)⟩
    rw [SDate.lt_iff]
    exact SDate.key_year_lt (by omega) h2 (by omega) (by omega)

/-- Constructor form of instant validity. -/
theorem SDateTime.valid_mk_dt {d : SDate} {t : STime} (hd : d.valid = true)
    (h1 : t.hour ≤ 23) (h2 : t.minute ≤ 59) (h3 : t.sec ≤ 59)
    (h4 : t.nano ≤ 999999999) : SDateTime.valid ⟨d, t⟩ = true := by
  unfold SDateTime.valid STime.valid
  simp only [Bool.and_eq_true, decide_eq_true_eq, and_assoc]
  exact ⟨hd, h1, h2, h3, h4⟩

/-- Destructor form of instant validity. -/
theorem SDateTime.valid_elim_dt {t : SDateTime} (h : t.valid = true) :
    t.date.valid = true ∧ t.time.hour ≤ 23 ∧ t.time.minute ≤ 59 ∧
      t.time.sec ≤ 59 ∧ t.time.nano ≤ 999999999 := by
  unfold SDateTime.valid STime.valid at h
  simp only [Bool.and_eq_true, decide_eq_true_eq, and_assoc] at h
  exact ⟨h.1, h.2.1, h.2.2.1, h.2.2.2.1, h.2.2.2.2⟩

/-- Same-date instants compare by time key. -/
theorem SDateTime.le_mk_same_date {d : SDate} {t1 t2 : STime}
    (h : t1.key ≤ t2.key) : (⟨d, t1⟩ : SDateTime) ≤ ⟨d, t2⟩ := by
  rw [SDateTime.key_le_iff]
  unfold SDateTime.key
  simp
  omega

/-- Same-date instants compare strictly by time key. -/
theorem SDateTime.lt_mk_same_date {d : SDate} {t1 t2 : STime}
    (h : t1.key < t2.key) : (⟨d, t1⟩ : SDateTime) < ⟨d, t2⟩ := by
  rw [SDateTime.key_lt_iff]
  unfold SDateTime.key
  simp
  omega

/-- The time key in terms of the components. -/
theorem STime.key_def (h m s n : Nat) :
    STime.key ⟨h, m, s, n⟩ =
      (((h * 60 + m) * 60 + s : Nat) : Int) * 1000000000 + n := rfl

/-- `next_minute` specified on valid instants: the result is valid, one
minute later, and preserves the second and sub-second components. -/
theorem nextMinute_spec {t r : SDateTime} (ht : t.valid = true)
    (h : nextMinute t = some r) :
    r.valid = true ∧ t < r ∧ r.time.sec = t.time.sec ∧ r.time.nano = t.time.nano := by
  obtain ⟨hdv, hth, htm, hts, htn⟩ := SDateTime.valid_elim_dt ht
  obtain ⟨dd, tt⟩ := t
  obtain ⟨hh, mm, ss, nn⟩ := tt
  simp only at hdv hth htm hts htn
  unfold nextMinute at h
  simp only at h
  split_ifs at h with hc1 hc2
  · injection h with h
    subst h
    exact ⟨SDateTime.valid_mk_dt hdv (by simpa using hth) (by simp; omega)
        (by simpa using hts) (by simpa using htn),
      SDateTime.lt_mk_same_date (by simp only [STime.key_def]; omega), rfl, rfl⟩
  · injection h with h
    subst h
    exact ⟨SDateTime.valid_mk_dt hdv (by simp; omega) (by simp)
        (by simpa using hts) (by simpa using htn),
      SDateTime.lt_mk_same_date (by simp only [STime.key_def]; omega), rfl, rfl⟩
  · simp only [Option.map_eq_some'] at h
    obtain ⟨d2, hd2, rfl⟩ := h
    obtain ⟨hv2, hlt2, -⟩ := SDate.succOpt_spec hdv hd2
    refine ⟨SDateTime.valid_mk_dt hv2 (by simp) (by simp)
        (by simpa using hts) (by simpa using htn), ?_, rfl, rfl⟩
    exact SDateTime.lt_of_date_lt (by simpa using hlt2)
      (by unfold STime.valid; simp; omega)

/-! ## Soundness of the time-of-day search -/

/-- Time order unfolded to the key. -/
theorem STime.time_le_iff (a b : STime) : a ≤ b ↔ a.key ≤ b.key := Iff.rfl

/-- Strict time order unfolded to the key. -/
theorem STime.time_lt_iff (a b : STime) : a < b ↔ a.key < b.key := Iff.rfl

/-- Validity of a literal time, as a proposition. -/
theorem STime.valid_mk_time (h m s n : Nat) :
    STime.valid ⟨h, m, s, n⟩ = true ↔ (h ≤ 23 ∧ m ≤ 59 ∧ s ≤ 59 ∧ n ≤ 999999999) := by
  unfold STime.valid
  simp [Bool.and_eq_true, decide_eq_true_eq, and_assoc]

/-- `find_next_minute` specified: the result names a set minute bit at or
after the current minute, everything else unchanged. -/
theorem findNextMinute_spec {c : Cron} {t r : STime} (h : findNextMinute c t = some r) :
    c.minutes.testBit r.minute = true ∧ r.minute ≤ 59 ∧ t.minute ≤ r.minute ∧
      r.hour = t.hour ∧ r.sec = t.sec ∧ r.nano = t.nano := by
  unfold findNextMinute at h
  simp only at h
  split_ifs at h with hlt
  obtain ⟨hs, hm, -⟩ := scan_spec 64 c.minutes t.minute hlt
  unfold STime.withMinute at h
  split_ifs at h with h59
  injection h with h
  subst h
  exact ⟨hs, h59, hm, rfl, rfl, rfl⟩

/-- `find_next_hour` specified: the result is a whole hour with a set hour
bit at or after the current hour. -/
theorem findNextHour_spec {c : Cron} {t r : STime} (h : findNextHour c t = some r) :
    c.hours.testBit r.hour = true ∧ r.hour ≤ 23 ∧ t.hour ≤ r.hour ∧
      r.minute = 0 ∧ r.sec = 0 ∧ r.nano = 0 := by
  unfold findNextHour at h
  simp only at h
  split_ifs at h with hlt
  obtain ⟨hs, hm, -⟩ := scan_spec 32 c.hours t.hour hlt
  unfold STime.fromHms at h
  split_ifs at h with hok
  injection h with h
  subst h
  exact ⟨hs, hok.1, hm, rfl, rfl, rfl⟩

set_option maxRecDepth 8000 in
/-- `find_next_time` specified: an `Ok(Some(_))` result is a valid time
whose hour and minute bits are set, at or after the start, and within the
bound when one is given. -/
theorem findNextTime_spec {c : Cron} {t : STime} {endOpt : Option STime} {r : STime}
    (ht : t.valid = true) (h : findNextTime c t endOpt = .ok (some r)) :
    c.hours.testBit r.hour = true ∧ c.minutes.testBit r.minute = true ∧
      r.valid = true ∧ t.key ≤ r.key ∧ ∀ e, endOpt = some e → r.key ≤ e.key := by
  unfold STime.valid at ht
  simp only [Bool.and_eq_true, decide_eq_true_eq, and_assoc] at ht
  have tailCase : ∀ r2 : STime,
      (((STime.fromHms (t.hour + 1) 0 0).bind (findNextHour c)).bind (findNextMinute c))
        = some r2 →
      c.hours.testBit r2.hour = true ∧ c.minutes.testBit r2.minute = true ∧
        r2.valid = true ∧ t.key ≤ r2.key := by
    intro r2 hchain
    rw [Option.bind_eq_some] at hchain
    obtain ⟨u, hu, hmin⟩ := hchain
    rw [Option.bind_eq_some] at hu
    obtain ⟨v, hv, hhour⟩ := hu
    unfold STime.fromHms at hv
    split_ifs at hv with hok
    injection hv with hv
    subst hv
    obtain ⟨hbit, hle23, hge, hm0, hs0, hn0⟩ := findNextHour_spec hhour
    obtain ⟨hmb, hm59, hmge, hmh, hms, hmn⟩ := findNextMinute_spec hmin
    obtain ⟨uh, um, us, un⟩ := u
    obtain ⟨rh, rm, rs, rn⟩ := r2
    obtain ⟨th, tm, tsec, tn⟩ := t
    simp only at hbit hle23 hge hm0 hs0 hn0 hmb hm59 hmge hmh hms hmn ht
    subst hmh hms hmn hm0 hs0 hn0
    refine ⟨hbit, hmb, ?_, ?_⟩
    · unfold STime.valid
      simp only [Bool.and_eq_true, decide_eq_true_eq, and_assoc]
      omega
    · simp only [STime.key_def]
      omega
  have mainCase : ∀ nm : STime, findNextMinute c t = some nm →
      Hours.containsHour c.hours t = true →
      c.hours.testBit nm.hour = true ∧ c.minutes.testBit nm.minute = true ∧
        nm.valid = true ∧ t.key ≤ nm.key := by
    intro nm hm hcont
    obtain ⟨hmb, hm59, hmge, hmh, hms, hmn⟩ := findNextMinute_spec hm
    unfold Hours.containsHour at hcont
    refine ⟨by rw [hmh]; exact hcont, hmb, ?_, ?_⟩
    · obtain ⟨rh, rm, rs, rn⟩ := nm
      obtain ⟨th, tm, tsec, tn⟩ := t
      simp only at hmh hms hmn hm59 hmge ht
      rw [STime.valid_mk_time]
      omega
    · obtain ⟨rh, rm, rs, rn⟩ := nm
      obtain ⟨th, tm, tsec, tn⟩ := t
      simp only at hmh hms hmn hm59 hmge ht
      simp only [STime.key_def]
      omega
  unfold findNextTime at h
  simp only at h
  rcases endOpt with _ | e
  · split_ifs at h with hcont
    · rcases hm : findNextMinute c t with _ | nm
      · rw [hm] at h
        simp only at h
        rcases hc : (((STime.fromHms (t.hour + 1) 0 0).bind (findNextHour c)).bind
            (findNextMinute c)) with _ | nm2
        · rw [hc] at h
          simp only at h
          cases h
        · rw [hc] at h
          simp only at h
          injection h with h
          injection h with h
          subst h
          obtain ⟨h1, h2, h3, h4⟩ := tailCase nm2 hc
          exact ⟨h1, h2, h3, h4, by intro e he; cases he⟩
      · rw [hm] at h
        simp only at h
        injection h with h
        injection h with h
        subst h
        obtain ⟨h1, h2, h3, h4⟩ := mainCase nm hm hcont
        exact ⟨h1, h2, h3, h4, by intro e he; cases he⟩
    · rcases hc : (((STime.fromHms (t.hour + 1) 0 0).bind (findNextHour c)).bind
          (findNextMinute c)) with _ | nm2
      · rw [hc] at h
        simp only at h
        cases h
      · rw [hc] at h
        simp only at h
        injection h with h
        injection h with h
        subst h
        obtain ⟨h1, h2, h3, h4⟩ := tailCase nm2 hc
        exact ⟨h1, h2, h3, h4, by intro e he; cases he⟩
  · split_ifs at h with hcont
    · rcases hm : findNextMinute c t with _ | nm
      · rw [hm] at h
        simp only at h
        rcases hc : (((STime.fromHms (t.hour + 1) 0 0).bind (findNextHour c)).bind
            (findNextMinute c)) with _ | nm2
        · rw [hc] at h
          simp only at h
          cases h
        · rw [hc] at h
          simp only at h
          by_cases hbound : e < nm2
          · rw [if_pos hbound] at h
            cases h
          · rw [if_neg hbound] at h
            injection h with h
            injection h with h
            subst h
            obtain ⟨h1, h2, h3, h4⟩ := tailCase nm2 hc
            rw [STime.time_lt_iff] at hbound
            have hb2 : nm2.key ≤ e.key := by omega
            refine ⟨h1, h2, h3, h4, ?_⟩
            intro e2 he2
            exact (Option.some.inj he2) ▸ hb2
      · rw [hm] at h
        simp only at h
        by_cases hbound : e < nm
        · rw [if_pos hbound] at h
          cases h
        · rw [if_neg hbound] at h
          injection h with h
          injection h with h
          subst h
          obtain ⟨h1, h2, h3, h4⟩ := mainCase nm hm hcont
          rw [STime.time_lt_iff] at hbound
          have hb2 : nm.key ≤ e.key := by omega
          refine ⟨h1, h2, h3, h4, ?_⟩
          intro e2 he2
          exact (Option.some.inj he2) ▸ hb2
    · rcases hc : (((STime.fromHms (t.hour + 1) 0 0).bind (findNextHour c)).bind
          (findNextMinute c)) with _ | nm2
      · rw [hc] at h
        simp only at h
        cases h
      · rw [hc] at h
        simp only at h
        by_cases hbound : e < nm2
        · rw [if_pos hbound] at h
          cases h
        · rw [if_neg hbound] at h
          injection h with h
          injection h with h
          subst h
          obtain ⟨h1, h2, h3, h4⟩ := tailCase nm2 hc
          rw [STime.time_lt_iff] at hbound
          have hb2 : nm2.key ≤ e.key := by omega
          refine ⟨h1, h2, h3, h4, ?_⟩
          intro e2 he2
          exact (Option.some.inj he2) ▸ hb2

/-- Witness for C8: the out-of-range parse lemmas applied at concrete
inputs, and the construction characterisation at concrete values. -/
theorem C8_range_validation_witness :
    minutesExpr ['6', '0'] = none ∧ hoursExpr ['2', '4'] = none
    ∧ domExpr ['3', '2'] = none ∧ monthsExpr ['1', '3'] = none
    ∧ dowExpr ['8'] = none ∧ minutesExpr ('*' :: '/' :: ['6', '0']) = none := by
  obtain ⟨-, -, -, -, -, -, -, -, -, -, -, -, hm, hh, hd, hmo, hdw, hst, -⟩ :=
    C8_range_validation
  exact ⟨hm _ (by decide) (by decide) (by decide), hh _ (by decide) (by decide) (by decide),
    hd _ (by decide) (by decide) (by decide), hmo _ (by decide) (by decide) (by decide),
    hdw _ (by decide) (by decide) (by decide), hst _ (by decide) (by decide) (by decide)⟩


/-! ## `find_next` returns a contained start unchanged -/

/-- The trailing-zero scan is the identity on a position whose bit is set. -/
theorem scan_fixed {w x m : Nat} (hm : m < w) (hb : x.testBit m = true) :
    trailingZeros w ((x >>> m) <<< m) = m := by
  obtain ⟨h1, h2⟩ := trailingZeros_spec w ((x >>> m) <<< m)
  rcases Nat.lt_trichotomy (trailingZeros w ((x >>> m) <<< m)) m with hlt | heq | hgt
  · have := h1 (by omega)
    rw [testBit_clearLow] at this
    simp only [Bool.and_eq_true, decide_eq_true_eq] at this
    omega
  · exact heq
  · have := h2 m hgt
    rw [testBit_clearLow, hb, Bool.and_true] at this
    simp at this

/-- `contains` unpacked: set minute, hour bits and a contained date. -/
theorem Cron.contains_elim {c : Cron} {d : SDate} {tm : STime}
    (h : c.contains ⟨d, tm⟩ = true) :
    c.minutes.testBit tm.minute = true ∧ c.hours.testBit tm.hour = true ∧
      c.containsDate d = true := by
  unfold Cron.contains at h
  simp only [Minutes.contains, Hours.contains, Hours.containsHour, Months.contains,
    Months.containsMonth, DaysOfMonth.contains, DaysOfWeek.contains] at h
  by_cases hmin : c.minutes.testBit tm.minute = true
  · by_cases hhr : c.hours.testBit tm.hour = true
    · by_cases hmo : c.months.testBit d.month0 = true
      · rw [hmin, hhr, hmo] at h
        simp only [Bool.and_self, Bool.not_true, Bool.false_eq_true, if_false] at h
        refine ⟨hmin, hhr, ?_⟩
        unfold Cron.containsDate
        rw [show Months.containsMonth c.months d = true from hmo]
        simpa using h
      · rw [Bool.not_eq_true] at hmo
        rw [hmin, hhr, hmo] at h
        simp at h
    · rw [Bool.not_eq_true] at hhr
      rw [hmin, hhr] at h
      simp at h
  · rw [Bool.not_eq_true] at hmin
    rw [hmin] at h
    simp at h

/-- `find_next_minute` is the identity on a time whose minute bit is set. -/
theorem findNextMinute_self {c : Cron} {tm : STime} (hv : tm.valid = true)
    (hb : c.minutes.testBit tm.minute = true) : findNextMinute c tm = some tm := by
  unfold STime.valid at hv
  simp only [Bool.and_eq_true, decide_eq_true_eq, and_assoc] at hv
  unfold findNextMinute
  simp only
  rw [scan_fixed (by omega) hb]
  rw [if_pos (by omega)]
  unfold STime.withMinute
  rw [if_pos (by omega)]

/-- `find_next_time` is the identity on a time whose hour and minute bits
are set, under a bound that does not cut it off. -/
theorem findNextTime_self {c : Cron} {tm : STime} {endOpt : Option STime}
    (hv : tm.valid = true)
    (hhb : c.hours.testBit tm.hour = true) (hmb : c.minutes.testBit tm.minute = true)
    (hbound : ∀ e, endOpt = some e → ¬ e < tm) :
    findNextTime c tm endOpt = .ok (some tm) := by
  unfold findNextTime
  simp only
  rw [if_pos (show Hours.containsHour c.hours tm = true from hhb)]
  rw [findNextMinute_self hv hmb]
  rcases endOpt with _ | e
  · rfl
  · simp only
    rw [if_neg (hbound e rfl)]

/-- A valid instant is at most `MAX_DATETIME`. -/
theorem SDateTime.le_MAX {t : SDateTime} (hv : t.valid = true) : t ≤ MAX_DATETIME := by
  obtain ⟨hd, hth, htm, hts, htn⟩ := SDateTime.valid_elim_dt hv
  obtain ⟨⟨y, m, d⟩, ⟨hh, mm, ss, nn⟩⟩ := t
  obtain ⟨hm1, hm2, hd1, hd2, hy1, hy2⟩ := SDate.valid_elim hd
  have hdim : daysInMonth ⟨y, m, 1⟩ ≤ 31 := (daysInMonth_bounds ⟨y, m, 1⟩ hm1 hm2).2
  rw [SDateTime.key_le_iff]
  unfold SDateTime.key MAX_DATETIME
  simp only [SDate.key, STime.key_def] at *
  omega

/-- The minute floor of a valid instant is valid. -/
theorem minuteFloor_valid {t : SDateTime} (hv : t.valid = true) :
    (minuteFloor t).valid = true := by
  obtain ⟨hd, hth, htm, hts, htn⟩ := SDateTime.valid_elim_dt hv
  obtain ⟨⟨y, m, d⟩, ⟨hh, mm, ss, nn⟩⟩ := t
  unfold minuteFloor
  simp only at hth htm ⊢
  exact SDateTime.valid_mk_dt hd (by simpa using hth) (by simpa using htm)
    (by simp) (by simp)

/-- `find_next` returns its start when the start is a contained valid
instant within the bound. -/
theorem findNext_self {c : Cron} {s e : SDateTime} (hv : s.valid = true)
    (hc : c.contains s = true) (hse : s ≤ e) : findNext c s e = some s := by
  obtain ⟨d, tm⟩ := s
  obtain ⟨hmin, hhr, hcd⟩ := Cron.contains_elim hc
  have htv : tm.valid = true := by
    obtain ⟨-, h1, h2, h3, h4⟩ := SDateTime.valid_elim_dt hv
    unfold STime.valid
    simp only [Bool.and_eq_true, decide_eq_true_eq, and_assoc]
    exact ⟨h1, h2, h3, h4⟩
  have hbound : ∀ e2, timeBoundForDate d e = some e2 → ¬ e2 < tm := by
    intro e2 he2
    unfold timeBoundForDate at he2
    split_ifs at he2 with hde
    injection he2 with he2
    subst he2
    subst hde
    rw [SDateTime.key_le_iff] at hse
    unfold SDateTime.key at hse
    simp only at hse
    rw [STime.time_lt_iff]
    omega
  unfold findNext
  simp only
  rw [hcd]
  simp only [if_true]
  rw [findNextTime_self htv hhr hmin hbound]

/-- `from_hms_opt` only ever returns the packed components. -/
theorem STime.fromHms_shape {h m s : Nat} {t : STime}
    (he : STime.fromHms h m s = some t) : t = ⟨h, m, s, 0⟩ := by
  unfold STime.fromHms at he
  split at he
  · exact (Option.some.inj he).symm
  · exact absurd he (by simp)

/-- Whether the minute scan fails depends only on the start's minute. -/
theorem findNextMinute_none_shift {c : Cron} {h m s n : Nat} (h2 s2 n2 : Nat)
    (hn : findNextMinute c ⟨h, m, s, n⟩ = none) :
    findNextMinute c ⟨h2, m, s2, n2⟩ = none := by
  unfold findNextMinute at hn ⊢
  simp only at hn ⊢
  by_cases hlt : trailingZeros 64 ((c.minutes >>> m) <<< m) < 64
  · rw [if_pos hlt] at hn ⊢
    unfold STime.withMinute at hn ⊢
    by_cases h59 : trailingZeros 64 ((c.minutes >>> m) <<< m) ≤ 59
    · rw [if_pos h59] at hn
      exact absurd hn (by simp)
    · rw [if_neg h59]
  · rw [if_neg hlt]

/-- Skipping a cleared minute bit does not change the minute scan. -/
theorem findNextMinute_skip (c : Cron) (h m s n : Nat)
    (hb : c.minutes.testBit m = false) :
    findNextMinute c ⟨h, m, s, n⟩ = findNextMinute c ⟨h, m + 1, s, n⟩ := by
  unfold findNextMinute
  simp only
  rw [scan_skip 64 c.minutes m hb]
  rfl

/-- From minute 59 with its bit clear, the minute scan fails. -/
theorem findNextMinute_at59 (c : Cron) (h s n : Nat)
    (hb : c.minutes.testBit 59 = false) :
    findNextMinute c ⟨h, 59, s, n⟩ = none := by
  unfold findNextMinute
  simp only
  by_cases hlt : trailingZeros 64 ((c.minutes >>> 59) <<< 59) < 64
  · rw [if_pos hlt]
    obtain ⟨h1, h2, -⟩ := scan_spec 64 c.minutes 59 hlt
    have hne : trailingZeros 64 ((c.minutes >>> 59) <<< 59) ≠ 59 := by
      intro he
      rw [he, hb] at h1
      exact absurd h1 (by simp)
    unfold STime.withMinute
    rw [if_neg (by omega)]
  · rw [if_neg hlt]

/-- A successful hour scan lands on a whole hour. -/
theorem findNextHour_shape {c : Cron} {t t2 : STime}
    (he : findNextHour c t = some t2) : ∃ H, t2 = ⟨H, 0, 0, 0⟩ := by
  unfold findNextHour at he
  simp only at he
  split at he
  · exact ⟨_, STime.fromHms_shape he⟩
  · exact absurd he (by simp)

/-- The hour scan is the identity hour on a set bit. -/
theorem findNextHour_fixed (c : Cron) (h m s n : Nat) (hh : h ≤ 23)
    (hb : c.hours.testBit h = true) :
    findNextHour c ⟨h, m, s, n⟩ = some ⟨h, 0, 0, 0⟩ := by
  unfold findNextHour
  simp only
  rw [scan_fixed (show h < 32 by omega) hb]
  rw [if_pos (by omega)]
  unfold STime.fromHms
  rw [if_pos ⟨hh, by omega, by omega⟩]

/-- Skipping a cleared hour bit does not change the hour scan. -/
theorem findNextHour_skip (c : Cron) (h m s n m2 s2 n2 : Nat)
    (hb : c.hours.testBit h = false) :
    findNextHour c ⟨h, m, s, n⟩ = findNextHour c ⟨h + 1, m2, s2, n2⟩ := by
  unfold findNextHour
  simp only
  rw [scan_skip 32 c.hours h hb]

/-- From hour 23 with its bit clear, the hour scan fails. -/
theorem findNextHour_at23 (c : Cron) (m s n : Nat)
    (hb : c.hours.testBit 23 = false) :
    findNextHour c ⟨23, m, s, n⟩ = none := by
  unfold findNextHour
  simp only
  by_cases hlt : trailingZeros 32 ((c.hours >>> 23) <<< 23) < 32
  · rw [if_pos hlt]
    obtain ⟨h1, h2, -⟩ := scan_spec 32 c.hours 23 hlt
    have hne : trailingZeros 32 ((c.hours >>> 23) <<< 23) ≠ 23 := by
      intro he
      rw [he, hb] at h1
      exact absurd h1 (by simp)
    unfold STime.fromHms
    rw [if_neg (fun hcon => absurd hcon.1 (by omega))]
  · rw [if_neg hlt]

/-- If the minute scan from a whole minute fails, the hour-carry chain of
`find_next_time` fails for every restart hour. -/
theorem hourChain_none_of {c : Cron} {x s n : Nat} (a : Nat)
    (hn : findNextMinute c ⟨x, 0, s, n⟩ = none) :
    ((STime.fromHms a 0 0).bind (findNextHour c)).bind (findNextMinute c) = none := by
  rcases hf : STime.fromHms a 0 0 with _ | t
  · rfl
  · show (findNextHour c t).bind (findNextMinute c) = none
    rcases hh : findNextHour c t with _ | t2
    · rfl
    · show findNextMinute c t2 = none
      obtain ⟨H, rfl⟩ := findNextHour_shape hh
      exact findNextMinute_none_shift H 0 0 hn

/-- When the start's own minute scan fails, `find_next_time` is decided by
the hour-carry chain alone. -/
theorem findNextTime_tail_eq {c : Cron} {u : STime} {b : Option STime}
    (hu : Hours.containsHour c.hours u = true → findNextMinute c u = none) :
    findNextTime c u b =
      match ((STime.fromHms (u.hour + 1) 0 0).bind (findNextHour c)).bind
          (findNextMinute c), b with
      | some nm, some e => if e < nm then Except.error () else Except.ok (some nm)
      | some nm, none => Except.ok (some nm)
      | none, _ => Except.ok none := by
  unfold findNextTime
  simp only
  by_cases hch : Hours.containsHour c.hours u = true
  · rw [if_pos hch, hu hch]
  · rw [if_neg hch]

/-- Stepping over a minute whose bit is clear (or whose hour is not
permitted) does not change `find_next_time`. -/
theorem findNextTime_stable_min (c : Cron) (h m s n : Nat) (b : Option STime)
    (hnb : ¬(c.hours.testBit h = true ∧ c.minutes.testBit m = true)) :
    findNextTime c ⟨h, m, s, n⟩ b = findNextTime c ⟨h, m + 1, s, n⟩ b := by
  by_cases hh : c.hours.testBit h = true
  · have hmb : c.minutes.testBit m = false := by
      cases hmb2 : c.minutes.testBit m
      · rfl
      · exact absurd ⟨hh, hmb2⟩ hnb
    unfold findNextTime
    simp only
    rw [if_pos (show Hours.containsHour c.hours ⟨h, m, s, n⟩ = true from hh),
      if_pos (show Hours.containsHour c.hours ⟨h, m + 1, s, n⟩ = true from hh)]
    rw [findNextMinute_skip c h m s n hmb]
  · unfold findNextTime
    simp only
    rw [if_neg (show ¬Hours.containsHour c.hours ⟨h, m, s, n⟩ = true from hh),
      if_neg (show ¬Hours.containsHour c.hours ⟨h, m + 1, s, n⟩ = true from hh)]

/-- Carrying into the next hour when minute 59 is not permitted (or the
hour itself is not) does not change `find_next_time`. -/
theorem findNextTime_stable_hour (c : Cron) (h : Nat) (b : Option STime)
    (hh23 : h < 23)
    (hnb : ¬(c.hours.testBit h = true ∧ c.minutes.testBit 59 = true)) :
    findNextTime c ⟨h, 59, 0, 0⟩ b = findNextTime c ⟨h + 1, 0, 0, 0⟩ b := by
  have hL : findNextTime c ⟨h, 59, 0, 0⟩ b =
      match ((STime.fromHms (h + 1) 0 0).bind (findNextHour c)).bind
          (findNextMinute c), b with
      | some nm, some e => if e < nm then Except.error () else Except.ok (some nm)
      | some nm, none => Except.ok (some nm)
      | none, _ => Except.ok none := by
    refine findNextTime_tail_eq (fun hch => ?_)
    have hmb : c.minutes.testBit 59 = false := by
      cases hmb2 : c.minutes.testBit 59
      · rfl
      · exact absurd ⟨hch, hmb2⟩ hnb
    exact findNextMinute_at59 c h 0 0 hmb
  rw [hL]
  have hfh : STime.fromHms (h + 1) 0 0 = some ⟨h + 1, 0, 0, 0⟩ := by
    unfold STime.fromHms
    rw [if_pos ⟨by omega, by omega, by omega⟩]
  by_cases hh1 : c.hours.testBit (h + 1) = true
  · have hchain : ((STime.fromHms (h + 1) 0 0).bind (findNextHour c)).bind
        (findNextMinute c) = findNextMinute c ⟨h + 1, 0, 0, 0⟩ := by
      rw [hfh]
      show (findNextHour c ⟨h + 1, 0, 0, 0⟩).bind (findNextMinute c) = _
      rw [findNextHour_fixed c (h + 1) 0 0 0 (by omega) hh1]
      rfl
    rw [hchain]
    unfold findNextTime
    simp only
    rw [if_pos (show Hours.containsHour c.hours ⟨h + 1, 0, 0, 0⟩ = true from hh1)]
    rcases hFM : findNextMinute c ⟨h + 1, 0, 0, 0⟩ with _ | nm
    · have hc2 : ((STime.fromHms (h + 1 + 1) 0 0).bind (findNextHour c)).bind
          (findNextMinute c) = none := hourChain_none_of (h + 1 + 1) hFM
      cases b <;> (rw [hc2]; try rfl)
    · cases b <;> rfl
  · have hchain : ((STime.fromHms (h + 1) 0 0).bind (findNextHour c)).bind
        (findNextMinute c) = ((STime.fromHms (h + 1 + 1) 0 0).bind
          (findNextHour c)).bind (findNextMinute c) := by
      rw [hfh]
      show (findNextHour c ⟨h + 1, 0, 0, 0⟩).bind (findNextMinute c) = _
      rcases Nat.lt_or_ge (h + 1) 23 with hlt | hge
      · have hfh2 : STime.fromHms (h + 1 + 1) 0 0 = some ⟨h + 1 + 1, 0, 0, 0⟩ := by
          unfold STime.fromHms
          rw [if_pos ⟨by omega, by omega, by omega⟩]
        rw [hfh2]
        show _ = (findNextHour c ⟨h + 1 + 1, 0, 0, 0⟩).bind (findNextMinute c)
        rw [Bool.not_eq_true] at hh1
        rw [findNextHour_skip c (h + 1) 0 0 0 0 0 0 hh1]
      · have h123 : h + 1 = 23 := by omega
        have hfh2 : STime.fromHms (h + 1 + 1) 0 0 = none := by
          unfold STime.fromHms
          rw [if_neg (fun hcon => absurd hcon.1 (by omega))]
        rw [hfh2]
        show (findNextHour c ⟨h + 1, 0, 0, 0⟩).bind (findNextMinute c) = none
        rw [Bool.not_eq_true] at hh1
        rw [h123] at hh1 ⊢
        rw [findNextHour_at23 c 0 0 0 hh1]
        rfl
    rw [hchain]
    unfold findNextTime
    simp only
    rw [if_neg (show ¬Hours.containsHour c.hours ⟨h + 1, 0, 0, 0⟩ = true from hh1)]

/-- All three field bits and a contained date make `contains` true. -/
theorem Cron.contains_bits_of_date {c : Cron} {d : SDate} {tm : STime}
    (hcd : c.containsDate d = true)
    (hhb : c.hours.testBit tm.hour = true) (hmb : c.minutes.testBit tm.minute = true) :
    c.contains ⟨d, tm⟩ = true := by
  have hmo : Months.containsMonth c.months d = true := by
    by_contra hcon
    rw [Bool.not_eq_true] at hcon
    unfold Cron.containsDate at hcd
    rw [hcon] at hcd
    simp at hcd
  unfold Cron.contains
  simp only [Minutes.contains, Hours.contains, Hours.containsHour, Months.contains,
    DaysOfMonth.contains, DaysOfWeek.contains]
  rw [hmb, hhb, hmo]
  simp only [Bool.and_self, Bool.not_true, Bool.false_eq_true, if_false]
  unfold Cron.containsDate at hcd
  rw [hmo] at hcd
  simp only [Bool.not_true, Bool.false_eq_true, if_false] at hcd
  exact hcd

/-- A false `contains` on a contained date refutes one of the two time
bits. -/
theorem Cron.contains_false_bits {c : Cron} {d : SDate} {tm : STime}
    (hc : c.contains ⟨d, tm⟩ = false) (hcd : c.containsDate d = true) :
    ¬(c.hours.testBit tm.hour = true ∧ c.minutes.testBit tm.minute = true) := by
  rintro ⟨hhb, hmb⟩
  rw [Cron.contains_bits_of_date hcd hhb hmb] at hc
  exact absurd hc (by simp)

/-- `find_next` depends on the start's time of day only through
`find_next_time`, and only when the start's date is contained. -/
theorem findNext_stable {c : Cron} {d : SDate} {u u2 : STime} {e : SDateTime}
    (hT : c.containsDate d = true →
      findNextTime c u (timeBoundForDate d e) = findNextTime c u2 (timeBoundForDate d e)) :
    findNext c ⟨d, u⟩ e = findNext c ⟨d, u2⟩ e := by
  unfold findNext
  simp only
  by_cases hcd : c.containsDate d = true
  · rw [if_pos hcd, if_pos hcd, hT hcd]
  · rw [if_neg hcd, if_neg hcd]

/-! ## C5: `next_from` against `next_after` -/

set_option maxHeartbeats 1600000 in
/-- Counterexample to C5 as stated: for `* * * * *` at 1970-01-01T00:00:30
`contains` holds but `next_from` returns the minute floor 00:00:00, not the
instant itself; for `0 0 L-29W 2 *` at 2021-02-01T00:00:00 `contains`
holds while `any()` is false, so `next_from` returns `None` (as does
`next_after`); and for `0 0 L-22W 1 *` at 2021-01-10T23:59:00 `contains`
is false yet `next_from` (2022-01-10) differs from `next_after`
(2021-01-11): the day search of the offsetted last-weekday form skips a
day that `contains_date` accepts once the search crosses midnight. -/
theorem C5_counterexample :
    ((cronFromStr ("* * * * *")).map (fun c =>
        (c.contains ⟨⟨1970, 1, 1⟩, ⟨0, 0, 30, 0⟩⟩,
         nextFrom c ⟨⟨1970, 1, 1⟩, ⟨0, 0, 30, 0⟩⟩))
      = some (true, some ⟨⟨1970, 1, 1⟩, ⟨0, 0, 0, 0⟩⟩))
    ∧ (⟨⟨1970, 1, 1⟩, ⟨0, 0, 0, 0⟩⟩ : SDateTime) ≠ ⟨⟨1970, 1, 1⟩, ⟨0, 0, 30, 0⟩⟩
    ∧ ((cronFromStr ("0 0 L-29W 2 *")).map (fun c =>
        (c.any, c.contains ⟨⟨2021, 2, 1⟩, ⟨0, 0, 0, 0⟩⟩,
         nextFrom c ⟨⟨2021, 2, 1⟩, ⟨0, 0, 0, 0⟩⟩,
         nextAfter c ⟨⟨2021, 2, 1⟩, ⟨0, 0, 0, 0⟩⟩))
      = some (false, true, none, none))
    ∧ ((cronFromStr ("0 0 L-22W 1 *")).map (fun c =>
        (c.any, c.contains ⟨⟨2021, 1, 10⟩, ⟨23, 59, 0, 0⟩⟩,
         nextFrom c ⟨⟨2021, 1, 10⟩, ⟨23, 59, 0, 0⟩⟩,
         nextAfter c ⟨⟨2021, 1, 10⟩, ⟨23, 59, 0, 0⟩⟩))
      = some (true, false,
          some ⟨⟨2022, 1, 10⟩, ⟨0, 0, 0, 0⟩⟩,
          some ⟨⟨2021, 1, 11⟩, ⟨0, 0, 0, 0⟩⟩))
    ∧ (some (⟨⟨2022, 1, 10⟩, ⟨0, 0, 0, 0⟩⟩ : SDateTime)
        ≠ some (⟨⟨2021, 1, 11⟩, ⟨0, 0, 0, 0⟩⟩ : SDateTime)) := by
  refine ⟨by decide, by decide, by decide, by decide, by decide⟩

/-- C5 (amended): for a valid instant, `next_from` and `next_after` are
both `None` when `any()` is false; when `any()` is true and `contains(t)`
holds, `next_from(t)` is `Some(minute_floor(t))`, which is `Some(t)`
exactly when `t` lies on a minute boundary; and when `any()` is true,
`contains(t)` fails and the minute after the floor stays within the same
day (`t` is not at 23:59), `next_from(t)` equals `next_after(t)`. -/
theorem C5_next_from_minute_floor (c : Cron) (t : SDateTime) (hv : t.valid = true) :
    (c.any = false → nextFrom c t = none ∧ nextAfter c t = none)
    ∧ (c.any = true → c.contains t = true → nextFrom c t = some (minuteFloor t))
    ∧ (minuteFloor t = t ↔ (t.time.sec = 0 ∧ t.time.nano = 0))
    ∧ (c.any = true → c.contains t = false →
        ¬(t.time.minute = 59 ∧ t.time.hour = 23) → nextFrom c t = nextAfter c t) := by
  refine ⟨?_, ?_, ?_, ?_⟩
  · intro ha
    constructor
    · unfold nextFrom
      simp only [ha, Bool.false_eq_true, if_false]
    · unfold nextAfter
      rcases hnm : nextMinute (minuteFloor t) with _ | s2
      · simp only
      · simp only [ha, Bool.false_eq_true, if_false]
  · intro ha hc
    unfold nextFrom
    simp only [ha, if_true]
    have hfv := minuteFloor_valid hv
    have hcf : c.contains (minuteFloor t) = true := hc
    exact findNext_self hfv hcf (SDateTime.le_MAX hfv)
  · obtain ⟨⟨y, m, d⟩, ⟨hh, mm, ss, nn⟩⟩ := t
    unfold minuteFloor
    simp only [SDateTime.mk.injEq, STime.mk.injEq, true_and, and_true]
    constructor
    · intro h
      obtain ⟨h1, h2⟩ := h
      omega
    · intro h
      obtain ⟨h1, h2⟩ := h
      omega
  · intro ha hc hn
    obtain ⟨⟨y, mo, dy⟩, ⟨hh, mm, ss, nn⟩⟩ := t
    unfold SDateTime.valid STime.valid at hv
    simp only [Bool.and_eq_true, decide_eq_true_eq] at hv
    have hn2 : ¬(mm = 59 ∧ hh = 23) := hn
    have hcb : ∀ hcd : c.containsDate ⟨y, mo, dy⟩ = true,
        ¬(c.hours.testBit hh = true ∧ c.minutes.testBit mm = true) := fun hcd =>
      Cron.contains_false_bits hc hcd
    unfold nextFrom nextAfter
    rcases Nat.lt_or_ge mm 59 with hlt | hge
    · have hnm : nextMinute ⟨⟨y, mo, dy⟩, ⟨hh, mm, 0, 0⟩⟩ =
          some ⟨⟨y, mo, dy⟩, ⟨hh, mm + 1, 0, 0⟩⟩ := by
        unfold nextMinute
        simp only
        rw [if_pos hlt]
      rw [show minuteFloor ⟨⟨y, mo, dy⟩, ⟨hh, mm, ss, nn⟩⟩ =
          (⟨⟨y, mo, dy⟩, ⟨hh, mm, 0, 0⟩⟩ : SDateTime) from rfl, hnm]
      show (if c.any = true then findNext c ⟨⟨y, mo, dy⟩, ⟨hh, mm, 0, 0⟩⟩ MAX_DATETIME
            else none)
        = if c.any = true then findNext c ⟨⟨y, mo, dy⟩, ⟨hh, mm + 1, 0, 0⟩⟩ MAX_DATETIME
            else none
      rw [if_pos ha, if_pos ha]
      exact findNext_stable (fun hcd => findNextTime_stable_min c hh mm 0 0 _ (hcb hcd))
    · have hm59 : mm = 59 := by omega
      subst hm59
      have hh23 : hh < 23 := by omega
      have hnm : nextMinute ⟨⟨y, mo, dy⟩, ⟨hh, 59, 0, 0⟩⟩ =
          some ⟨⟨y, mo, dy⟩, ⟨hh + 1, 0, 0, 0⟩⟩ := by
        unfold nextMinute
        simp only
        rw [if_neg (by omega), if_pos hh23]
      rw [show minuteFloor ⟨⟨y, mo, dy⟩, ⟨hh, 59, ss, nn⟩⟩ =
          (⟨⟨y, mo, dy⟩, ⟨hh, 59, 0, 0⟩⟩ : SDateTime) from rfl, hnm]
      show (if c.any = true then findNext c ⟨⟨y, mo, dy⟩, ⟨hh, 59, 0, 0⟩⟩ MAX_DATETIME
            else none)
        = if c.any = true then findNext c ⟨⟨y, mo, dy⟩, ⟨hh + 1, 0, 0, 0⟩⟩ MAX_DATETIME
            else none
      rw [if_pos ha, if_pos ha]
      exact findNext_stable (fun hcd => findNextTime_stable_hour c hh _ hh23 (hcb hcd))

/-- Witness for C5 (amended): the every-minute schedule at
1970-01-01T00:00:30 returns the minute floor, and the minute-0 schedule at
2021-01-10T00:30:00 (not contained, same day) gives equal `next_from` and
`next_after`. -/
theorem C5_next_from_minute_floor_witness :
    (nextFrom ⟨Minutes.ALL, Hours.ALL, ⟨.Star, 0⟩, Months.ALL, ⟨.Star, 0⟩⟩
        ⟨⟨1970, 1, 1⟩, ⟨0, 0, 30, 0⟩⟩ =
      some (minuteFloor ⟨⟨1970, 1, 1⟩, ⟨0, 0, 30, 0⟩⟩))
    ∧ (nextFrom ⟨1, Hours.ALL, ⟨.Star, 0⟩, Months.ALL, ⟨.Star, 0⟩⟩
          ⟨⟨2021, 1, 10⟩, ⟨0, 30, 0, 0⟩⟩ =
        nextAfter ⟨1, Hours.ALL, ⟨.Star, 0⟩, Months.ALL, ⟨.Star, 0⟩⟩
          ⟨⟨2021, 1, 10⟩, ⟨0, 30, 0, 0⟩⟩) :=
  ⟨(C5_next_from_minute_floor ⟨Minutes.ALL, Hours.ALL, ⟨.Star, 0⟩, Months.ALL, ⟨.Star, 0⟩⟩
      ⟨⟨1970, 1, 1⟩, ⟨0, 0, 30, 0⟩⟩ (by decide)).2.1 (by decide) (by decide),
   (C5_next_from_minute_floor ⟨1, Hours.ALL, ⟨.Star, 0⟩, Months.ALL, ⟨.Star, 0⟩⟩
      ⟨⟨2021, 1, 10⟩, ⟨0, 30, 0, 0⟩⟩ (by decide)).2.2.2 (by decide) (by decide) (by decide)⟩
end Saffron
